import Mathlib

set_option autoImplicit false

/-!
Verification of the spicey circuit-simulator core against its specification.

The definitions below are shallow embeddings of the TypeScript source under
`src/`.  JavaScript double arithmetic is modelled by exact rationals `ℚ`
(and by `ℝ` where the source evaluates transcendental functions such as
`Math.exp`, `Math.log10` or `Math.pow`).  Out-of-range array reads
(`xs[i] ?? 0`) are modelled by `List.getD _ _ 0`; out-of-range writes, which
JavaScript silently accepts and the source guards with `continue`, are
modelled by `List.set`, which is a no-op out of range.
-/

namespace Spicey

/-- `EPS` from `src/lib/constants/EPS`: the literal `1e-15`. -/
def EPS : ℚ := 1 / 10 ^ 15

/-! ### Voltage-controlled switch update

From `src/lib/analysis/simulateTRAN.ts`, `updateSwitchStatesFromSolution`
(primary implementation, lines 116–136 of the file).  The per-switch rule is

```
let nextState = sw.isOn
if (sw.isOn) {
  if (vctrl <= model.Voff) nextState = false
} else if (vctrl > model.Von) {
  nextState = true
}
```
-/

structure SwitchModel where
  Ron : ℚ
  Roff : ℚ
  Von : ℚ
  Voff : ℚ
deriving DecidableEq, Repr

structure Switch where
  n1 : ℕ
  n2 : ℕ
  ncPos : ℕ
  ncNeg : ℕ
  model : SwitchModel
  isOn : Bool
deriving DecidableEq, Repr

/-- The per-switch next state computed by `updateSwitchStatesFromSolution`
in `src/lib/analysis/simulateTRAN.ts` (lines 124–129). -/
def switchNextState (isOn : Bool) (model : SwitchModel) (vctrl : ℚ) : Bool :=
  if isOn then
    if vctrl ≤ model.Voff then false else isOn
  else
    if vctrl > model.Von then true else isOn

/-- `vc = v(ncPos) − v(ncNeg)` read from the solution vector, ground (node 0)
contributing 0 and a non-ground node id reading `x[id − 1]` (lines 121–123). -/
def controlVoltage (x : List ℚ) (ncPos ncNeg : ℕ) : ℚ :=
  (if ncPos = 0 then 0 else x.getD (ncPos - 1) 0) -
    (if ncNeg = 0 then 0 else x.getD (ncNeg - 1) 0)

/-- `updateSwitchStatesFromSolution` (lines 116–136): every switch gets the
next state for its control voltage; the returned flag records whether any
state changed.  The imperative loop writes each `sw.isOn` independently, so it
is the pointwise map below, and `switched` is the disjunction of the
per-switch change tests. -/
def updateSwitchStatesFromSolution (S : List Switch) (x : List ℚ) :
    List Switch × Bool :=
  (S.map fun sw =>
     let vc := controlVoltage x sw.ncPos sw.ncNeg
     { sw with isOn := switchNextState sw.isOn sw.model vc },
   S.any fun sw =>
     let vc := controlVoltage x sw.ncPos sw.ncNeg
     switchNextState sw.isOn sw.model vc != sw.isOn)

/-- Tolerance `1e−6` named by the specification's switch-update rule. -/
def ctrlTol : ℚ := 1 / 10 ^ 6

/-- The switch-update rule as the specification states it (spec §4.7 step d):
ON and `vc ≤ Voff + tol` turns OFF; OFF and `vc ≥ Von − tol` turns ON, with
`tol = 1e−6`. -/
def claimSwitchNextState (isOn : Bool) (model : SwitchModel) (vctrl : ℚ) :
    Bool :=
  if isOn then
    if vctrl ≤ model.Voff + ctrlTol then false else isOn
  else
    if vctrl ≥ model.Von - ctrlTol then true else isOn

/-! ### Transient time grid

`computeEffectiveTimeStep` from `src/lib/analysis/simulateTRAN.ts`
(lines 14–24 of the file):

```
const MIN_STEPS = 500
const defaultStep = tstop > 0 ? tstop / MIN_STEPS : 0
const printStep = dtRequested > EPS ? dtRequested : defaultStep
const internalBase = Math.max(defaultStep, EPS)
const dtTarget =
  dtRequested > EPS ? Math.min(printStep, internalBase) : internalBase
const steps = Math.max(1, Math.ceil(tstop / Math.max(dtTarget, EPS)))
const dt = steps > 0 ? tstop / steps : tstop
```
-/

structure TimeStepResult where
  dt : ℚ
  steps : ℤ
  printStep : ℚ
deriving DecidableEq, Repr

def computeEffectiveTimeStep (dtRequested tstop : ℚ) : TimeStepResult :=
  let MIN_STEPS : ℚ := 500
  let defaultStep : ℚ := if tstop > 0 then tstop / MIN_STEPS else 0
  let printStep : ℚ := if dtRequested > EPS then dtRequested else defaultStep
  let internalBase : ℚ := max defaultStep EPS
  let dtTarget : ℚ :=
    if dtRequested > EPS then min printStep internalBase else internalBase
  let steps : ℤ := max 1 ⌈tstop / max dtTarget EPS⌉
  let dt : ℚ := if steps > 0 then tstop / (steps : ℚ) else tstop
  ⟨dt, steps, printStep⟩

/-- The effective step as the specification states it:
`dtEff = dt` if `dt > ε`, else `max(tstop/1000, ε)`. -/
def claimDtEff (dtRequested tstop : ℚ) : ℚ :=
  if dtRequested > EPS then dtRequested else max (tstop / 1000) EPS

/-- `steps = max(1, ⌈tstop/dtEff⌉)` as the specification states it. -/
def claimSteps (dtRequested tstop : ℚ) : ℤ :=
  max 1 ⌈tstop / claimDtEff dtRequested tstop⌉

/-! ### Voltage-source index finalization

`parseNetlist` (src/lib/parsing/parseNetlist.ts, lines 457–462):

```
const nNodes = ckt.nodes.count() - 1
for (let i = 0; i < ckt.V.length; i++) {
  const vs = ckt.V[i]
  if (!vs) continue
  vs.index = nNodes + i
}
```
-/

structure VSource where
  name : String
  n1 : ℕ
  n2 : ℕ
  dc : ℚ
  index : ℤ
deriving DecidableEq, Repr, Inhabited

def assignVsrcIndicesGo (nNodes : ℤ) : ℕ → List VSource → List VSource
  | _, [] => []
  | i, vs :: rest =>
      { vs with index := nNodes + i } :: assignVsrcIndicesGo nNodes (i + 1) rest

/-- The finalization loop: the k-th voltage source (0-based parse order)
receives index `nNodes + k` where `nNodes = nodes.count() − 1` is the number
of non-ground nodes. -/
def assignVsrcIndices (nodeCount : ℕ) (V : List VSource) : List VSource :=
  assignVsrcIndicesGo ((nodeCount : ℤ) - 1) 0 V

/-! ### Dense real linear solver

`solveReal` from `src/lib/math/solveReal.ts`: Gaussian elimination with
partial pivoting on an augmented copy of the rows.  The source mutates the
caller's `A` (it reassigns `A[i]` to the augmented copies, then eliminates and
permutes them in place) and only ever reads `b`; the embedding therefore
returns both the solution and the final caller-visible matrix.  All loops are
written as structural recursions on an explicit count so that the embedding
evaluates on concrete inputs.  `A[i][j] ?? 0` becomes `getD _ 0`; writes out
of range (which JavaScript's guards skip) become `List.set`, a no-op out of
range. -/

abbrev Mat := List (List ℚ)

def getRow (M : Mat) (i : ℕ) : List ℚ := M.getD i []

def getE (M : Mat) (i j : ℕ) : ℚ := (getRow M i).getD j 0

/-- The augmentation loop (lines 5–12): `A[i] = A[i].slice(); A[i].push(b[i])`. -/
def augment (A : Mat) (b : List ℚ) : Mat :=
  (A.zip b).map fun rb => rb.1 ++ [rb.2]

/-- The pivot-search loop body (lines 15–27): scan rows `i = k+1 .. n−1`
keeping the row of strictly largest `|A[i][k]|`, seeded with row `k`. -/
def pivotScan (M : Mat) (k : ℕ) : ℕ → ℕ → ℕ × ℚ → ℕ × ℚ
  | 0, _, p => p
  | c + 1, i, p =>
      let v := |getE M i k|
      pivotScan M k c (i + 1) (if v > p.2 then (i, v) else p)

def pivotSelect (M : Mat) (k n : ℕ) : ℕ × ℚ :=
  pivotScan M k (n - (k + 1)) (k + 1) (k, |getE M k k|)

/-- Row swap with a temporary (lines 30–34). -/
def swapRows (M : Mat) (i j : ℕ) : Mat :=
  let ri := getRow M i
  let rj := getRow M j
  (M.set i rj).set j ri

/-- The inner update loop (lines 47–52): `row[j] -= f * pivotRow[j]` for
`j = k .. n`. -/
def rowUpdate (f : ℚ) (pr : List ℚ) : ℕ → ℕ → List ℚ → List ℚ
  | 0, _, r => r
  | c + 1, j, r => rowUpdate f pr c (j + 1) (r.set j (r.getD j 0 - f * pr.getD j 0))

/-- One row of the elimination (lines 40–53): `f = A[i][k]/pivot`; when `skip`
is set and `|f| < EPS` the update is skipped (the source's optimization);
otherwise the row combination is performed. -/
def rowEliminate (skip : Bool) (k n : ℕ) (pr : List ℚ) (pivot : ℚ)
    (row : List ℚ) : List ℚ :=
  if skip ∧ |row.getD k 0 / pivot| < EPS then row
  else rowUpdate (row.getD k 0 / pivot) pr (n + 1 - k) k row

/-- The loop over rows `i = k+1 .. n−1`.  The pivot row `A[k]` is fixed for
the whole loop, so it is read once up front. -/
def elimRows (skip : Bool) (k n : ℕ) (pr : List ℚ) (pivot : ℚ) :
    ℕ → ℕ → Mat → Mat
  | 0, _, M => M
  | c + 1, i, M =>
      elimRows skip k n pr pivot c (i + 1)
        (M.set i (rowEliminate skip k n pr pivot (getRow M i)))

def elimBelow (skip : Bool) (k n : ℕ) (M : Mat) : Mat :=
  elimRows skip k n (getRow M k) (getE M k k) (n - (k + 1)) (k + 1) M

/-- One full pivot step (pivot search, conditional swap, elimination below),
without the singularity check. -/
def elimStep (skip : Bool) (n k : ℕ) (M : Mat) : Mat :=
  let imax := (pivotSelect M k n).1
  let M1 := if imax ≠ k then swapRows M k imax else M
  elimBelow skip k n M1

inductive SolveErr where
  | dimMismatch
  | singular
deriving DecidableEq, Repr

/-! ### Complex arithmetic

`Complex` from `src/lib/math/Complex.ts`: pairs of doubles.  `div` throws
`ArithmeticDegenerate` ("Complex divide by ~0") when `|b|² < EPS`.  The
modulus `abs()` is `Math.hypot(re, im) = √(re² + im²)`, an irrational real;
the source only ever uses it in comparisons (`v > vmax`, `vmax < EPS`,
`f.abs() < EPS`), and since `√` is strictly monotone on nonnegatives each
comparison is equivalent to the corresponding comparison of squared
magnitudes, which is what the executable embedding uses (`normSq` against
`epsSq = EPS²`); the bridging lemmas `cabs_lt_cabs_iff` and `cabs_lt_eps_iff`
below justify the translation. -/

structure Qc where
  re : ℚ
  im : ℚ
deriving DecidableEq, Repr

def Qc.zero : Qc := ⟨0, 0⟩

def Qc.sub (a b : Qc) : Qc := ⟨a.re - b.re, a.im - b.im⟩

def Qc.mul (a b : Qc) : Qc :=
  ⟨a.re * b.re - a.im * b.im, a.re * b.im + a.im * b.re⟩

/-- `|z|² = re² + im²`, the `d` computed by `Complex.div`. -/
def Qc.normSq (a : Qc) : ℚ := a.re * a.re + a.im * a.im

/-- `EPS²`: the squared-magnitude threshold equivalent to `abs < EPS`. -/
def epsSq : ℚ := EPS ^ 2

/-- `Complex.div` (src/lib/math/Complex.ts): fails (throws
"Complex divide by ~0") iff `d = |b|² < EPS`. -/
def Qc.div (a b : Qc) : Except Unit Qc :=
  if Qc.normSq b < EPS then .error ()
  else .ok ⟨(a.re * b.re + a.im * b.im) / Qc.normSq b,
            (a.im * b.re - a.re * b.im) / Qc.normSq b⟩

/-- Total division: the same quotient formula with no degeneracy check, used
only on the specification side to describe the partially-eliminated matrix. -/
def Qc.divT (a b : Qc) : Qc :=
  ⟨(a.re * b.re + a.im * b.im) / Qc.normSq b,
   (a.im * b.re - a.re * b.im) / Qc.normSq b⟩

/-- `abs() = Math.hypot(re, im)` as a real number. -/
noncomputable def cabs (z : Qc) : ℝ := Real.sqrt ((Qc.normSq z : ℚ) : ℝ)

/-! ### Dense complex linear solver

`solveComplex` from `src/lib/math/solveComplex.ts`, structured exactly like
`solveReal` above.  A missing entry (`?? 0`, or the truthiness guards — a
`Complex` object is always truthy in JavaScript, so `!entry` only fires for a
missing entry) is modelled by the default `Qc.zero`. -/

abbrev MatC := List (List Qc)

def getRowC (M : MatC) (i : ℕ) : List Qc := M.getD i []

def getEC (M : MatC) (i j : ℕ) : Qc := (getRowC M i).getD j Qc.zero

def augmentC (A : MatC) (b : List Qc) : MatC :=
  (A.zip b).map fun rb => rb.1 ++ [rb.2]

/-- Pivot search (lines 16–28 of solveComplex.ts); the running second
component is the squared magnitude of the current maximum (`v > vmax` on
`abs` values iff on squared magnitudes). -/
def pivotScanC (M : MatC) (k : ℕ) : ℕ → ℕ → ℕ × ℚ → ℕ × ℚ
  | 0, _, p => p
  | c + 1, i, p =>
      let v := Qc.normSq (getEC M i k)
      pivotScanC M k c (i + 1) (if v > p.2 then (i, v) else p)

def pivotSelectC (M : MatC) (k n : ℕ) : ℕ × ℚ :=
  pivotScanC M k (n - (k + 1)) (k + 1) (k, Qc.normSq (getEC M k k))

def swapRowsC (M : MatC) (i j : ℕ) : MatC :=
  let ri := getRowC M i
  let rj := getRowC M j
  (M.set i rj).set j ri

/-- `row[j] = row[j].sub(f.mul(pivotRow[j]))` for `j = k .. n`. -/
def rowUpdateC (f : Qc) (pr : List Qc) : ℕ → ℕ → List Qc → List Qc
  | 0, _, r => r
  | c + 1, j, r =>
      rowUpdateC f pr c (j + 1)
        (r.set j (Qc.sub (r.getD j Qc.zero) (Qc.mul f (pr.getD j Qc.zero))))

/-- One row of the complex elimination (lines 40–53): `f = entry.div(pivot)`
is computed first and can throw ArithmeticDegenerate; then the `|f| < EPS`
skip; then the row combination. -/
def rowEliminateC (skip : Bool) (k n : ℕ) (pr : List Qc) (pivot : Qc)
    (row : List Qc) : Except Unit (List Qc) :=
  match Qc.div (row.getD k Qc.zero) pivot with
  | .error _ => .error ()
  | .ok f =>
      if skip ∧ Qc.normSq f < epsSq then .ok row
      else .ok (rowUpdateC f pr (n + 1 - k) k row)

/-- Specification-side total variant of `rowEliminateC` (same skip test, no
degeneracy failure). -/
def rowEliminateCT (skip : Bool) (k n : ℕ) (pr : List Qc) (pivot : Qc)
    (row : List Qc) : List Qc :=
  if skip ∧ Qc.normSq (Qc.divT (row.getD k Qc.zero) pivot) < epsSq then row
  else rowUpdateC (Qc.divT (row.getD k Qc.zero) pivot) pr (n + 1 - k) k row

def elimRowsC (skip : Bool) (k n : ℕ) (pr : List Qc) (pivot : Qc) :
    ℕ → ℕ → MatC → Except Unit MatC
  | 0, _, M => .ok M
  | c + 1, i, M =>
      match rowEliminateC skip k n pr pivot (getRowC M i) with
      | .error _ => .error ()
      | .ok r => elimRowsC skip k n pr pivot c (i + 1) (M.set i r)

def elimRowsCT (skip : Bool) (k n : ℕ) (pr : List Qc) (pivot : Qc) :
    ℕ → ℕ → MatC → MatC
  | 0, _, M => M
  | c + 1, i, M =>
      elimRowsCT skip k n pr pivot c (i + 1)
        (M.set i (rowEliminateCT skip k n pr pivot (getRowC M i)))

def elimBelowC (skip : Bool) (k n : ℕ) (M : MatC) : Except Unit MatC :=
  elimRowsC skip k n (getRowC M k) (getEC M k k) (n - (k + 1)) (k + 1) M

def elimBelowCT (skip : Bool) (k n : ℕ) (M : MatC) : MatC :=
  elimRowsCT skip k n (getRowC M k) (getEC M k k) (n - (k + 1)) (k + 1) M

/-- One unconditional pivot step of the specification-side elimination. -/
def elimStepCT (skip : Bool) (n k : ℕ) (M : MatC) : MatC :=
  let imax := (pivotSelectC M k n).1
  let M1 := if imax ≠ k then swapRowsC M k imax else M
  elimBelowCT skip k n M1

/-- `count` unconditional specification-side pivot steps from column `k`. -/
def elimStepsCT (skip : Bool) (n : ℕ) : ℕ → ℕ → MatC → MatC
  | 0, _, M => M
  | c + 1, k, M => elimStepsCT skip n c (k + 1) (elimStepCT skip n k M)

inductive CplxErr where
  | dimMismatch
  | singular
  | degenerate
deriving DecidableEq, Repr

/-- Forward elimination of `solveComplex` (lines 15–54): singularity check on
the pivot magnitude first, then swap, then elimination below the pivot, whose
divisions can throw ArithmeticDegenerate. -/
def elimLoopC (skip : Bool) (n : ℕ) : ℕ → ℕ → MatC → Except CplxErr MatC
  | 0, _, M => .ok M
  | fuel + 1, k, M =>
      if (pivotSelectC M k n).2 < epsSq then .error .singular
      else
        let imax := (pivotSelectC M k n).1
        let M1 := if imax ≠ k then swapRowsC M k imax else M
        match elimBelowC skip k n M1 with
        | .error _ => .error .degenerate
        | .ok M2 => elimLoopC skip n fuel (k + 1) M2

def backSubSumC (M : MatC) (x : List Qc) (i : ℕ) : ℕ → ℕ → Qc → Qc
  | 0, _, s => s
  | c + 1, j, s =>
      backSubSumC M x i c (j + 1)
        (Qc.sub s (Qc.mul (getEC M i j) (x.getD j Qc.zero)))

/-- Back substitution (lines 57–73): `x[i] = s.div(pivot)` can throw
ArithmeticDegenerate. -/
def backSubLoopC (n : ℕ) (M : MatC) : ℕ → List Qc → Except Unit (List Qc)
  | 0, x => .ok x
  | c + 1, x =>
      let i := c
      let s := backSubSumC M x i (n - (i + 1)) (i + 1) (getEC M i n)
      match Qc.div s (getEC M i i) with
      | .error _ => .error ()
      | .ok v => backSubLoopC n M c (x.set i v)

def backSubC (n : ℕ) (M : MatC) : Except Unit (List Qc) :=
  backSubLoopC n M n (List.replicate n Qc.zero)

inductive CplxSolveResult where
  | cfailure (e : CplxErr)
  | csuccess (x : List Qc) (Afinal : MatC)
deriving DecidableEq, Repr

/-- `solveComplex` (parameterized by the skip, as for the real solver).
`Afinal` is the caller-visible matrix after the call; `b` is only read. -/
def solveComplexGen (skip : Bool) (A : MatC) (b : List Qc) : CplxSolveResult :=
  let n := A.length
  if b.length < n then .cfailure .dimMismatch
  else
    match elimLoopC skip n n 0 (augmentC A b) with
    | .error e => .cfailure e
    | .ok M =>
        match backSubC n M with
        | .error _ => .cfailure .degenerate
        | .ok x => .csuccess x M

def solveComplex (A : MatC) (b : List Qc) : CplxSolveResult :=
  solveComplexGen true A b

/-- The forward-elimination loop `for (k = 0; k < n; k++)` with the check
`if (vmax < EPS) throw SingularMatrix`.  The first argument is the remaining
iteration count `n − k`. -/
def elimLoop (skip : Bool) (n : ℕ) : ℕ → ℕ → Mat → Except SolveErr Mat
  | 0, _, M => .ok M
  | fuel + 1, k, M =>
      if (pivotSelect M k n).2 < EPS then .error .singular
      else elimLoop skip n fuel (k + 1) (elimStep skip n k M)

/-- `count` unconditional pivot steps starting at column `k`: the forward
elimination with the singularity check removed, used to state which
partially-eliminated matrix each pivot test reads. -/
def elimSteps (skip : Bool) (n : ℕ) : ℕ → ℕ → Mat → Mat
  | 0, _, M => M
  | c + 1, k, M => elimSteps skip n c (k + 1) (elimStep skip n k M)

/-- Inner sum of the back substitution (lines 62–67): `s -= A[i][j] * x[j]`
for `j = i+1 .. n−1`. -/
def backSubSum (M : Mat) (x : List ℚ) (i : ℕ) : ℕ → ℕ → ℚ → ℚ
  | 0, _, s => s
  | c + 1, j, s => backSubSum M x i c (j + 1) (s - getE M i j * x.getD j 0)

/-- Back substitution (lines 56–72), `i = n−1` down to `0` on an initial
all-zero `x` of length `n`; the count argument is `i + 1`. -/
def backSubLoop (n : ℕ) (M : Mat) : ℕ → List ℚ → List ℚ
  | 0, x => x
  | c + 1, x =>
      let i := c
      let s := backSubSum M x i (n - (i + 1)) (i + 1) (getE M i n)
      backSubLoop n M c (x.set i (s / getE M i i))

def backSub (n : ℕ) (M : Mat) : List ℚ :=
  backSubLoop n M n (List.replicate n 0)

inductive RealSolveResult where
  | failure (e : SolveErr)
  | success (x : List ℚ) (Afinal : Mat)
deriving DecidableEq, Repr

/-- `solveReal` (parameterized by whether the `|f| < EPS` skip is kept).
`Afinal` is the caller-visible contents of `A` after the call; `b` is only
read by the source, never written, so the caller's `b` is the input `b`. -/
def solveRealGen (skip : Bool) (A : Mat) (b : List ℚ) : RealSolveResult :=
  let n := A.length
  if b.length < n then .failure .dimMismatch
  else
    match elimLoop skip n n 0 (augment A b) with
    | .error e => .failure e
    | .ok M => .success (backSub n M) M

/-- `solveReal` as in the source (with the skip optimization). -/
def solveReal (A : Mat) (b : List ℚ) : RealSolveResult := solveRealGen true A b

/-- The comparison baseline of spec §4.2: the same solver with the
`|f| < EPS` skip removed, i.e. the row elimination is always performed. -/
def solveRealNoSkip (A : Mat) (b : List ℚ) : RealSolveResult :=
  solveRealGen false A b

/-- Per-row multiplier check for column `k` (post-swap matrix `M`): every
multiplier `f = A[i][k]/pivot` falling under the skip threshold is exactly 0. -/
def multOkRows (k : ℕ) (pivot : ℚ) (M : Mat) : ℕ → ℕ → Bool
  | 0, _ => true
  | c + 1, i =>
      decide (|getE M i k / pivot| < EPS → getE M i k / pivot = 0) &&
        multOkRows k pivot M c (i + 1)

def multOkCol (k n : ℕ) (M : Mat) : Bool :=
  multOkRows k (getE M k k) M (n - (k + 1)) (k + 1)

/-- `allMultOk` walks the elimination exactly as the (skip) solver does and
checks `multOkCol` at every column: it certifies that no multiplier the
solver ever skips is a nonzero value below `EPS`. -/
def allMultOk (n : ℕ) : ℕ → ℕ → Mat → Bool
  | 0, _, _ => true
  | fuel + 1, k, M =>
      let imax := (pivotSelect M k n).1
      let M1 := if imax ≠ k then swapRows M k imax else M
      multOkCol k n M1 && allMultOk n fuel (k + 1) (elimBelow true k n M1)

/-! ### Diode linearization (TRAN Newton loop)

From `stampAllElementsAtTime` in `src/lib/analysis/simulateTRAN.ts`
(lines 93–108): the Shockley companion model around the Newton seed `vd`:

```
const v_thermal = model.N * VT_300K
let vd_limited = vd
if (vd > 0.8) vd_limited = 0.8 // prevent overflow
if (vd < -1.0) vd_limited = -1.0 // limit reverse voltage
const exp_val = Math.exp(vd_limited / v_thermal)
const id = model.Is * (exp_val - 1)
const gd = Math.max((model.Is / v_thermal) * exp_val, 1e-12)
const ieq = id - gd * vd_limited
```
-/

/-- Modelled from the spec: `VT_300K` lives in `src/lib/constants/physics`,
which is not among the provided sources; spec §4.7 gives
`Vth = 0.02585 V (≈300 K)`.  Its value is irrelevant to C2. -/
noncomputable def VT_300K : ℝ := 0.02585

/-- The diode linearization (gd, id, ieq) as computed by the source; the two
sequential `if` statements on `vd` are translated as two nested conditionals
(they can never both fire). -/
noncomputable def diodeLinearize (Is N vd : ℝ) : ℝ × ℝ × ℝ :=
  let v_thermal := N * VT_300K
  let l1 : ℝ := if vd > 0.8 then 0.8 else vd
  let vd_limited : ℝ := if vd < -1.0 then -1.0 else l1
  let exp_val := Real.exp (vd_limited / v_thermal)
  let id := Is * (exp_val - 1)
  let gd := max (Is / v_thermal * exp_val) (1e-12)
  (gd, id, id - gd * vd_limited)

/-- The clamp as the claim states it: a seed above 0.8 is replaced by 0.8, a
seed below −1.0 by −1.0. -/
noncomputable def clampSeed (vd : ℝ) : ℝ :=
  if vd > 0.8 then 0.8 else if vd < -1.0 then -1.0 else vd

/-! ### Node index

`NodeIndex` from `src/lib/parsing/NodeIndex.ts`.  The `Map` is modelled as
an association list; `map.set(key, idx)` is a cons, which looks up the same
way because the key being inserted is never already present.  The source's
`String(name).toUpperCase()` maps `Char.toUpper` over the characters (the
embedding does so directly on the character list). -/

def toUpperKey (s : String) : String := ⟨s.data.map Char.toUpper⟩

structure NodeIndexSt where
  map : List (String × ℕ)
  rev : List String
deriving DecidableEq, Repr

/-- The constructor: ground is pre-registered as `"0" ↦ 0`. -/
def NodeIndexSt.init : NodeIndexSt := ⟨[("0", 0)], ["0"]⟩

/-- `getOrCreate(name)` (NodeIndex.ts lines 10–18): look the uppercased key
up; on a miss allocate `idx = rev.length`, register the key and push the
original casing onto `rev`. -/
def getOrCreate (st : NodeIndexSt) (name : String) : ℕ × NodeIndexSt :=
  let key := toUpperKey name
  match st.map.lookup key with
  | some i => (i, st)
  | none =>
      let idx := st.rev.length
      (idx, ⟨(key, idx) :: st.map, st.rev ++ [name]⟩)

/-- `get(name)` (lines 20–22). -/
def NodeIndexSt.get (st : NodeIndexSt) (name : String) : Option ℕ :=
  st.map.lookup (toUpperKey name)

/-- `count()` (lines 24–26). -/
def NodeIndexSt.count (st : NodeIndexSt) : ℕ := st.rev.length

/-- `matrixIndexOfNode` (lines 28–31): ground has no matrix variable. -/
def matrixIndexOfNode (nodeId : ℕ) : ℤ :=
  if nodeId = 0 then -1 else (nodeId : ℤ) - 1

/-! ### Waveform evaluators

`pwlValue` from `src/lib/parsing/pwlValue.ts` and `pulseValue` from
`src/lib/parsing/pulseValue.ts`.  `ncycles` may be the parser's default
`Infinity`, modelled as `none`; a finite `cyclesDone` is never `≥ ∞`.
For `period = 0` the JavaScript quotient `tt/period` is `±Infinity` (or
`NaN` when `tt = 0`); in every such case the function returns `v1`
(`Infinity ≥ ncycles` holds both for finite `ncycles` and for the default
`Infinity`, and with `NaN` every branch comparison is false so the final
`return p.v1` is reached), which the embedding models as an explicit
branch. -/

structure PulseSpec where
  v1 : ℚ
  v2 : ℚ
  td : ℚ
  tr : ℚ
  tf : ℚ
  ton : ℚ
  period : ℚ
  ncycles : Option ℚ
deriving DecidableEq, Repr

def cyclesExhausted (k : ℤ) : Option ℚ → Bool
  | none => false
  | some q => decide ((k : ℚ) ≥ q)

def pulseValue (p : PulseSpec) (t : ℚ) : ℚ :=
  if t < p.td then p.v1
  else
    let tt := t - p.td
    if p.period = 0 then p.v1
    else
      let cyclesDone : ℤ := ⌊tt / p.period⌋
      if cyclesExhausted cyclesDone p.ncycles then p.v1
      else
        let tc := tt - cyclesDone * p.period
        if tc < p.tr then p.v1 + (p.v2 - p.v1) * (tc / max p.tr EPS)
        else if tc < p.tr + p.ton then p.v2
        else if tc < p.tr + p.ton + p.tf then
          p.v2 + (p.v1 - p.v2) * ((tc - (p.tr + p.ton)) / max p.tf EPS)
        else p.v1

/-- `pulseValue` with every division checked (`none` on a zero divisor):
witnesses that the ε floors keep every divisor nonzero. -/
def pulseValueChecked (p : PulseSpec) (t : ℚ) : Option ℚ :=
  if t < p.td then some p.v1
  else
    let tt := t - p.td
    if p.period = 0 then some p.v1
    else
      let cyclesDone : ℤ := ⌊tt / p.period⌋
      if cyclesExhausted cyclesDone p.ncycles then some p.v1
      else
        let tc := tt - cyclesDone * p.period
        if tc < p.tr then
          if max p.tr EPS = 0 then none
          else some (p.v1 + (p.v2 - p.v1) * (tc / max p.tr EPS))
        else if tc < p.tr + p.ton then some p.v2
        else if tc < p.tr + p.ton + p.tf then
          if max p.tf EPS = 0 then none
          else some (p.v2 + (p.v1 - p.v2) * ((tc - (p.tr + p.ton)) / max p.tf EPS))
        else some p.v1

/-- The scan loop of `pwlValue` (`for i = 1..`): `prev` carries
`pairs[i−1]`; falling off the end returns the last value. -/
def pwlGo (prev : ℚ × ℚ) : List (ℚ × ℚ) → ℚ → ℚ
  | [], _ => prev.2
  | curr :: rest, t =>
      if t ≤ curr.1 then
        prev.2 + (curr.2 - prev.2) * ((t - prev.1) / max (curr.1 - prev.1) EPS)
      else pwlGo curr rest t

def pwlValue (pairs : List (ℚ × ℚ)) (t : ℚ) : ℚ :=
  match pairs with
  | [] => 0
  | p0 :: rest => if t ≤ p0.1 then p0.2 else pwlGo p0 rest t

def pwlGoChecked (prev : ℚ × ℚ) : List (ℚ × ℚ) → ℚ → Option ℚ
  | [], _ => some prev.2
  | curr :: rest, t =>
      if t ≤ curr.1 then
        if max (curr.1 - prev.1) EPS = 0 then none
        else some (prev.2 + (curr.2 - prev.2) * ((t - prev.1) / max (curr.1 - prev.1) EPS))
      else pwlGoChecked curr rest t

def pwlValueChecked (pairs : List (ℚ × ℚ)) (t : ℚ) : Option ℚ :=
  match pairs with
  | [] => some 0
  | p0 :: rest => if t ≤ p0.1 then some p0.2 else pwlGoChecked p0 rest t

/-! ### Stamping primitive

`stampAdmittanceReal` from `src/lib/stamping/stampAdmittanceReal.ts`: each
block guards `if (iX >= 0)`, reads the row (`if (!row) throw "Matrix row
missing while stamping"`), and additively writes. -/

def stampAdmittanceReal (A : Mat) (n1 n2 : ℕ) (Y : ℚ) : Except Unit Mat := do
  let i1 := matrixIndexOfNode n1
  let i2 := matrixIndexOfNode n2
  let A1 ←
    if 0 ≤ i1 then
      if i1.toNat < A.length then
        let row1 := getRow A i1.toNat
        pure (A.set i1.toNat (row1.set i1.toNat (row1.getD i1.toNat 0 + Y)))
      else throw ()
    else pure A
  let A2 ←
    if 0 ≤ i2 then
      if i2.toNat < A1.length then
        let row2 := getRow A1 i2.toNat
        pure (A1.set i2.toNat (row2.set i2.toNat (row2.getD i2.toNat 0 + Y)))
      else throw ()
    else pure A1
  if 0 ≤ i1 ∧ 0 ≤ i2 then
    if i1.toNat < A2.length then
      let row1 := getRow A2 i1.toNat
      let A3 := A2.set i1.toNat (row1.set i2.toNat (row1.getD i2.toNat 0 - Y))
      if i2.toNat < A3.length then
        let row2 := getRow A3 i2.toNat
        pure (A3.set i2.toNat (row2.set i1.toNat (row2.getD i1.toNat 0 - Y)))
      else throw ()
    else throw ()
  else pure A2

/-! ### Logarithmic frequency sweep

`logspace` from `src/lib/utils/logspace.ts`:

```
if (f1 <= 0 || f2 <= 0) throw new Error(".ac frequencies must be > 0")
if (f2 < f1) [f1, f2] = [f2, f1]
const decades = Math.log10(f2 / f1)
const n = Math.max(1, Math.ceil(decades * pointsPerDecade))
for (let i = 0; i <= n; i++) arr.push(f1 * Math.pow(10, i / pointsPerDecade))
if (last == null || last < f2 * (1 - EPS)) arr.push(f2)
```
-/

/-- `EPS = 1e-15` as a real number, for the `ℝ`-valued embeddings. -/
noncomputable def EPSR : ℝ := 1 / 10 ^ 15

noncomputable def logspace (f1 f2 : ℝ) (N : ℕ) : Except Unit (List ℝ) :=
  if f1 ≤ 0 ∨ f2 ≤ 0 then .error ()
  else
    let lo := if f2 < f1 then f2 else f1
    let hi := if f2 < f1 then f1 else f2
    let decades := Real.logb 10 (hi / lo)
    let n : ℤ := max 1 ⌈decades * (N : ℝ)⌉
    let arr := (List.range (n.toNat + 1)).map
      fun i : ℕ => lo * (10 : ℝ) ^ ((i : ℝ) / (N : ℝ))
    if arr.getD (arr.length - 1) 0 < hi * (1 - EPSR) then .ok (arr ++ [hi])
    else .ok arr

/-! ## Supporting lemmas -/

theorem getRow_set_ne (M : Mat) (i i' : ℕ) (r : List ℚ) (h : i ≠ i') :
    getRow (M.set i r) i' = getRow M i' := by
  simp only [getRow, List.getD]
  rw [List.get?_set_ne _ _ h]

theorem getE_set_ne (M : Mat) (i i' j : ℕ) (r : List ℚ) (h : i ≠ i') :
    getE (M.set i r) i' j = getE M i' j := by
  simp only [getE, getRow_set_ne M i i' r h]

theorem getRow_mem (M : Mat) (i : ℕ) (h : i < M.length) : getRow M i ∈ M := by
  simp only [getRow, List.getD]
  rw [List.get?_eq_get h]
  simpa using List.get_mem M i h

/-- Shape of a working matrix: `n` rows, each of length `m`. -/
def MatShape (n m : ℕ) (M : Mat) : Prop :=
  M.length = n ∧ ∀ r ∈ M, r.length = m

theorem matShape_set (n m : ℕ) (M : Mat) (i : ℕ) (r : List ℚ)
    (hM : MatShape n m M) (hr : r.length = m) : MatShape n m (M.set i r) := by
  refine ⟨by simpa using hM.1, ?_⟩
  intro r' hr'
  rcases List.mem_or_eq_of_mem_set hr' with h | h
  · exact hM.2 r' h
  · simpa [h] using hr

theorem rowUpdate_length (f : ℚ) (pr : List ℚ) :
    ∀ (c j : ℕ) (r : List ℚ), (rowUpdate f pr c j r).length = r.length := by
  intro c
  induction c with
  | zero => intro j r; rfl
  | succ c ih => intro j r; simp [rowUpdate, ih]

theorem rowEliminate_length (skip : Bool) (k n : ℕ) (pr : List ℚ) (pivot : ℚ)
    (row : List ℚ) : (rowEliminate skip k n pr pivot row).length = row.length := by
  unfold rowEliminate
  split
  · rfl
  · exact rowUpdate_length _ _ _ _ _

theorem getRow_length (nn m : ℕ) (M : Mat) (i : ℕ) (hM : MatShape nn m M)
    (hi : i < nn) : (getRow M i).length = m :=
  hM.2 _ (getRow_mem M i (by rw [hM.1]; exact hi))

theorem elimRows_shape (skip : Bool) (k n : ℕ) (pr : List ℚ) (pivot : ℚ)
    (nn m : ℕ) :
    ∀ (c i : ℕ) (M : Mat), i + c ≤ nn → MatShape nn m M →
      MatShape nn m (elimRows skip k n pr pivot c i M) := by
  intro c
  induction c with
  | zero => intro i M _ hM; exact hM
  | succ c ih =>
      intro i M hc hM
      simp only [elimRows]
      refine ih (i + 1) _ (by omega) ?_
      refine matShape_set nn m M i _ hM ?_
      rw [rowEliminate_length]
      exact getRow_length nn m M i hM (by omega)

theorem swapRows_shape (nn m : ℕ) (M : Mat) (i j : ℕ) (hi : i < nn)
    (hj : j < nn) (hM : MatShape nn m M) : MatShape nn m (swapRows M i j) := by
  unfold swapRows
  refine matShape_set nn m _ j _ ?_ (getRow_length nn m M i hM hi)
  exact matShape_set nn m M i _ hM (getRow_length nn m M j hM hj)

theorem pivotScan_fst_lt (M : Mat) (k n : ℕ) :
    ∀ (c i : ℕ) (p : ℕ × ℚ), p.1 < n → i + c ≤ n →
      (pivotScan M k c i p).1 < n := by
  intro c
  induction c with
  | zero => intro i p hp _; exact hp
  | succ c ih =>
      intro i p hp hc
      simp only [pivotScan]
      refine ih (i + 1) _ ?_ (by omega)
      split
      · exact (by omega : i < n)
      · exact hp

theorem pivotSelect_fst_lt (M : Mat) (k n : ℕ) (hk : k < n) :
    (pivotSelect M k n).1 < n := by
  unfold pivotSelect
  exact pivotScan_fst_lt M k n _ (k + 1) _ hk (by omega)

theorem elimStep_shape (skip : Bool) (n k : ℕ) (M : Mat) (hk : k < n)
    (m : ℕ) (hM : MatShape n m M) : MatShape n m (elimStep skip n k M) := by
  unfold elimStep elimBelow
  have h1 : MatShape n m
      (if (pivotSelect M k n).1 ≠ k then swapRows M k (pivotSelect M k n).1 else M) := by
    split
    · exact swapRows_shape n m M k _ hk (pivotSelect_fst_lt M k n hk) hM
    · exact hM
  exact elimRows_shape skip k n _ _ n m _ (k + 1) _ (by omega) h1

theorem augment_shape (A : Mat) (b : List ℚ) (n : ℕ) (hA : A.length = n)
    (hrows : ∀ r ∈ A, r.length = n) (hb : n ≤ b.length) :
    MatShape n (n + 1) (augment A b) := by
  constructor
  · simp [augment, hA]; omega
  · intro r hr
    simp only [augment, List.mem_map] at hr
    obtain ⟨⟨ra, bi⟩, hmem, hEq⟩ := hr
    have : ra ∈ A := (List.of_mem_zip hmem).1
    simp [← hEq, hrows ra this]

theorem elimLoop_ok_shape (skip : Bool) (n : ℕ) :
    ∀ (fuel k : ℕ) (M M' : Mat), k + fuel = n → MatShape n (n + 1) M →
      elimLoop skip n fuel k M = .ok M' → MatShape n (n + 1) M' := by
  intro fuel
  induction fuel with
  | zero =>
      intro k M M' _ hM h
      simp only [elimLoop] at h
      cases h
      exact hM
  | succ fuel ih =>
      intro k M M' hkf hM h
      simp only [elimLoop] at h
      split at h
      · cases h
      · exact ih (k + 1) _ M' (by omega)
          (elimStep_shape skip n k M (by omega) _ hM) h

theorem backSubLoop_length (n : ℕ) (M : Mat) :
    ∀ (c : ℕ) (x : List ℚ), (backSubLoop n M c x).length = x.length := by
  intro c
  induction c with
  | zero => intro x; rfl
  | succ c ih => intro x; simp [backSubLoop, ih]

theorem backSub_length (n : ℕ) (M : Mat) : (backSub n M).length = n := by
  simp [backSub, backSubLoop_length]

theorem pivotScan_lt_iff (M : Mat) (k : ℕ) (cq : ℚ) :
    ∀ (c i : ℕ) (p : ℕ × ℚ),
      ((pivotScan M k c i p).2 < cq ↔
        p.2 < cq ∧ ∀ d, d < c → |getE M (i + d) k| < cq) := by
  intro c
  induction c with
  | zero =>
      intro i p
      simp [pivotScan]
  | succ c ih =>
      intro i p
      simp only [pivotScan]
      rw [ih (i + 1)]
      constructor
      · rintro ⟨h1, h2⟩
        split at h1
        · next hgt =>
            refine ⟨lt_trans hgt h1, ?_⟩
            intro d hd
            match d, hd with
            | 0, _ => simpa using h1
            | d + 1, hd =>
                have := h2 d (by omega)
                simpa [Nat.add_assoc, Nat.add_comm 1 d] using this
        · next hgt =>
            refine ⟨h1, ?_⟩
            intro d hd
            match d, hd with
            | 0, _ => simpa using lt_of_le_of_lt (not_lt.mp hgt) h1
            | d + 1, hd =>
                have := h2 d (by omega)
                simpa [Nat.add_assoc, Nat.add_comm 1 d] using this
      · rintro ⟨h1, h2⟩
        have hv : |getE M i k| < cq := by simpa using h2 0 (by omega)
        constructor
        · split
          · exact hv
          · exact h1
        · intro d hd
          have := h2 (d + 1) (by omega)
          simpa [Nat.add_assoc, Nat.add_comm 1 d] using this

theorem pivotSelect_lt_iff (M : Mat) (k n : ℕ) (hk : k < n) (cq : ℚ) :
    ((pivotSelect M k n).2 < cq ↔ ∀ i, k ≤ i → i < n → |getE M i k| < cq) := by
  unfold pivotSelect
  rw [pivotScan_lt_iff]
  constructor
  · rintro ⟨h1, h2⟩ i hki hin
    rcases Nat.lt_or_ge k i with h | h
    · have := h2 (i - (k + 1)) (by omega)
      have hi : k + 1 + (i - (k + 1)) = i := by omega
      rwa [hi] at this
    · have : i = k := by omega
      simpa [this] using h1
  · intro h
    refine ⟨h k le_rfl hk, ?_⟩
    intro d hd
    exact h (k + 1 + d) (by omega) (by omega)

theorem elimLoop_no_dimErr (skip : Bool) (n : ℕ) :
    ∀ (fuel k : ℕ) (M : Mat) (e : SolveErr),
      elimLoop skip n fuel k M = .error e → e = .singular := by
  intro fuel
  induction fuel with
  | zero => intro k M e h; simp [elimLoop] at h
  | succ fuel ih =>
      intro k M e h
      simp only [elimLoop] at h
      split at h
      · cases h; rfl
      · exact ih (k + 1) _ e h

theorem elimLoop_singular_iff (skip : Bool) (n : ℕ) :
    ∀ (fuel k : ℕ) (M : Mat), k + fuel = n →
      (elimLoop skip n fuel k M = .error .singular ↔
        ∃ j, k ≤ j ∧ j < n ∧
          (pivotSelect (elimSteps skip n (j - k) k M) j n).2 < EPS) := by
  intro fuel
  induction fuel with
  | zero =>
      intro k M hk
      constructor
      · intro h; simp [elimLoop] at h
      · rintro ⟨j, h1, h2, _⟩; omega
  | succ fuel ih =>
      intro k M hk
      simp only [elimLoop]
      split
      · next hpiv =>
          simp only [true_iff, eq_self_iff_true]
          exact ⟨k, le_rfl, by omega, by simpa [elimSteps] using hpiv⟩
      · next hpiv =>
          rw [ih (k + 1) _ (by omega)]
          constructor
          · rintro ⟨j, h1, h2, h3⟩
            refine ⟨j, by omega, h2, ?_⟩
            have hstep : j - k = (j - (k + 1)) + 1 := by omega
            rw [hstep]
            simpa [elimSteps] using h3
          · rintro ⟨j, h1, h2, h3⟩
            rcases Nat.eq_or_lt_of_le h1 with h | h
            · exfalso
              apply hpiv
              simpa [← h, elimSteps] using h3
            · refine ⟨j, by omega, h2, ?_⟩
              have hstep : j - k = (j - (k + 1)) + 1 := by omega
              rw [hstep] at h3
              simpa [elimSteps] using h3

theorem list_set_getD (l : List ℚ) : ∀ (j : ℕ), l.set j (l.getD j 0) = l := by
  induction l with
  | nil => intro j; rfl
  | cons a l ih =>
      intro j
      cases j with
      | zero => simp [List.getD]
      | succ j => simpa [List.getD] using ih j

theorem rowUpdate_zero (pr : List ℚ) :
    ∀ (c j : ℕ) (r : List ℚ), rowUpdate 0 pr c j r = r := by
  intro c
  induction c with
  | zero => intro j r; rfl
  | succ c ih =>
      intro j r
      simp only [rowUpdate, zero_mul, sub_zero, list_set_getD]
      exact ih (j + 1) r

theorem rowEliminate_skip_eq (k n : ℕ) (pr : List ℚ) (pivot : ℚ)
    (row : List ℚ)
    (h : |row.getD k 0 / pivot| < EPS → row.getD k 0 / pivot = 0) :
    rowEliminate true k n pr pivot row = rowEliminate false k n pr pivot row := by
  unfold rowEliminate
  by_cases hf : |row.getD k 0 / pivot| < EPS
  · rw [if_pos ⟨rfl, hf⟩, if_neg (by simp), h hf, rowUpdate_zero]
  · rw [if_neg (by simpa using hf), if_neg (by simp)]

theorem multOkRows_congr (k : ℕ) (pivot : ℚ) :
    ∀ (c i : ℕ) (M M' : Mat),
      (∀ d, d < c → getE M' (i + d) k = getE M (i + d) k) →
      multOkRows k pivot M' c i = multOkRows k pivot M c i := by
  intro c
  induction c with
  | zero => intro i M M' _; rfl
  | succ c ih =>
      intro i M M' h
      simp only [multOkRows]
      rw [show getE M' i k = getE M i k by simpa using h 0 (by omega),
        ih (i + 1) M M' (fun d hd => by
          have := h (d + 1) (by omega)
          simpa [Nat.add_assoc, Nat.add_comm 1 d] using this)]

theorem elimRows_skip_eq (k n : ℕ) (pr : List ℚ) (pivot : ℚ) :
    ∀ (c i : ℕ) (M : Mat), multOkRows k pivot M c i = true →
      elimRows true k n pr pivot c i M = elimRows false k n pr pivot c i M := by
  intro c
  induction c with
  | zero => intro i M _; rfl
  | succ c ih =>
      intro i M h
      simp only [multOkRows, Bool.and_eq_true, decide_eq_true_eq] at h
      simp only [elimRows]
      rw [rowEliminate_skip_eq k n pr pivot (getRow M i) (by
        intro hf
        exact h.1 hf)]
      apply ih
      rw [multOkRows_congr k pivot c (i + 1) M _ (fun d hd =>
        getE_set_ne _ _ _ _ _ (by omega))]
      exact h.2

theorem elimBelow_skip_eq (k n : ℕ) (M : Mat) (h : multOkCol k n M = true) :
    elimBelow true k n M = elimBelow false k n M :=
  elimRows_skip_eq k n _ _ _ _ M h

theorem elimLoop_skip_eq (n : ℕ) :
    ∀ (fuel k : ℕ) (M : Mat), allMultOk n fuel k M = true →
      elimLoop true n fuel k M = elimLoop false n fuel k M := by
  intro fuel
  induction fuel with
  | zero => intro k M _; rfl
  | succ fuel ih =>
      intro k M h
      simp only [allMultOk, Bool.and_eq_true] at h
      simp only [elimLoop]
      split
      · rfl
      · have hbelow := elimBelow_skip_eq k n _ h.1
        simp only [elimStep]
        rw [← hbelow]
        exact ih (k + 1) _ h.2

theorem Qc.div_ok (a b f : Qc) (h : Qc.div a b = .ok f) : f = Qc.divT a b := by
  unfold Qc.div at h
  split at h
  · cases h
  · cases h; rfl

theorem Qc.div_err_iff (a b : Qc) :
    Qc.div a b = .error () ↔ Qc.normSq b < EPS := by
  unfold Qc.div
  split
  · next h => simpa using h
  · next h => simpa using h

theorem getRowC_set_ne (M : MatC) (i i' : ℕ) (r : List Qc) (h : i ≠ i') :
    getRowC (M.set i r) i' = getRowC M i' := by
  simp only [getRowC, List.getD]
  rw [List.get?_set_ne _ _ h]

theorem getRowC_mem (M : MatC) (i : ℕ) (h : i < M.length) : getRowC M i ∈ M := by
  simp only [getRowC, List.getD]
  rw [List.get?_eq_get h]
  simpa using List.get_mem M i h

/-- Shape of a complex working matrix. -/
def MatShapeC (n m : ℕ) (M : MatC) : Prop :=
  M.length = n ∧ ∀ r ∈ M, r.length = m

theorem matShapeC_set (n m : ℕ) (M : MatC) (i : ℕ) (r : List Qc)
    (hM : MatShapeC n m M) (hr : r.length = m) : MatShapeC n m (M.set i r) := by
  refine ⟨by simpa using hM.1, ?_⟩
  intro r' hr'
  rcases List.mem_or_eq_of_mem_set hr' with h | h
  · exact hM.2 r' h
  · simpa [h] using hr

theorem getRowC_length (nn m : ℕ) (M : MatC) (i : ℕ) (hM : MatShapeC nn m M)
    (hi : i < nn) : (getRowC M i).length = m :=
  hM.2 _ (getRowC_mem M i (by rw [hM.1]; exact hi))

theorem rowUpdateC_length (f : Qc) (pr : List Qc) :
    ∀ (c j : ℕ) (r : List Qc), (rowUpdateC f pr c j r).length = r.length := by
  intro c
  induction c with
  | zero => intro j r; rfl
  | succ c ih => intro j r; simp [rowUpdateC, ih]

theorem rowEliminateCT_length (skip : Bool) (k n : ℕ) (pr : List Qc)
    (pivot : Qc) (row : List Qc) :
    (rowEliminateCT skip k n pr pivot row).length = row.length := by
  unfold rowEliminateCT
  split
  · rfl
  · exact rowUpdateC_length _ _ _ _ _

theorem rowEliminateC_ok (skip : Bool) (k n : ℕ) (pr : List Qc) (pivot : Qc)
    (row r : List Qc) (h : rowEliminateC skip k n pr pivot row = .ok r) :
    rowEliminateCT skip k n pr pivot row = r := by
  unfold rowEliminateC at h
  unfold rowEliminateCT
  cases hdiv : Qc.div (row.getD k Qc.zero) pivot with
  | error e => rw [hdiv] at h; cases h
  | ok f =>
      rw [hdiv] at h
      dsimp only at h
      rw [← Qc.div_ok _ _ f hdiv]
      by_cases hcond : skip = true ∧ Qc.normSq f < epsSq
      · rw [if_pos hcond] at h
        cases h
        rw [if_pos hcond]
      · rw [if_neg hcond] at h
        cases h
        rw [if_neg hcond]

theorem rowEliminateC_err_iff (skip : Bool) (k n : ℕ) (pr : List Qc)
    (pivot : Qc) (row : List Qc) :
    rowEliminateC skip k n pr pivot row = .error () ↔ Qc.normSq pivot < EPS := by
  constructor
  · intro h
    unfold rowEliminateC at h
    cases hdiv : Qc.div (row.getD k Qc.zero) pivot with
    | error e =>
        cases e
        exact (Qc.div_err_iff _ _).mp hdiv
    | ok f =>
        rw [hdiv] at h
        dsimp only at h
        by_cases hcond : skip = true ∧ Qc.normSq f < epsSq
        · rw [if_pos hcond] at h; cases h
        · rw [if_neg hcond] at h; cases h
  · intro h
    unfold rowEliminateC
    have hdiv : Qc.div (row.getD k Qc.zero) pivot = .error () := by
      unfold Qc.div
      rw [if_pos h]
    rw [hdiv]

theorem elimRowsC_ok (skip : Bool) (k n : ℕ) (pr : List Qc) (pivot : Qc) :
    ∀ (c i : ℕ) (M M2 : MatC),
      elimRowsC skip k n pr pivot c i M = .ok M2 →
      elimRowsCT skip k n pr pivot c i M = M2 := by
  intro c
  induction c with
  | zero => intro i M M2 h; cases h; rfl
  | succ c ih =>
      intro i M M2 h
      simp only [elimRowsC] at h
      cases helim : rowEliminateC skip k n pr pivot (getRowC M i) with
      | error e => rw [helim] at h; cases h
      | ok r =>
          rw [helim] at h
          simp only [elimRowsCT, rowEliminateC_ok skip k n pr pivot _ r helim]
          exact ih (i + 1) _ M2 h

theorem elimBelowC_ok (skip : Bool) (k n : ℕ) (M M2 : MatC)
    (h : elimBelowC skip k n M = .ok M2) : elimBelowCT skip k n M = M2 :=
  elimRowsC_ok skip k n _ _ _ _ M M2 h

theorem pivotScanC_fst_lt (M : MatC) (k n : ℕ) :
    ∀ (c i : ℕ) (p : ℕ × ℚ), p.1 < n → i + c ≤ n →
      (pivotScanC M k c i p).1 < n := by
  intro c
  induction c with
  | zero => intro i p hp _; exact hp
  | succ c ih =>
      intro i p hp hc
      simp only [pivotScanC]
      refine ih (i + 1) _ ?_ (by omega)
      split
      · exact (by omega : i < n)
      · exact hp

theorem pivotSelectC_fst_lt (M : MatC) (k n : ℕ) (hk : k < n) :
    (pivotSelectC M k n).1 < n := by
  unfold pivotSelectC
  exact pivotScanC_fst_lt M k n _ (k + 1) _ hk (by omega)

theorem pivotScanC_lt_iff (M : MatC) (k : ℕ) (cq : ℚ) :
    ∀ (c i : ℕ) (p : ℕ × ℚ),
      ((pivotScanC M k c i p).2 < cq ↔
        p.2 < cq ∧ ∀ d, d < c → Qc.normSq (getEC M (i + d) k) < cq) := by
  intro c
  induction c with
  | zero =>
      intro i p
      simp [pivotScanC]
  | succ c ih =>
      intro i p
      simp only [pivotScanC]
      rw [ih (i + 1)]
      constructor
      · rintro ⟨h1, h2⟩
        split at h1
        · next hgt =>
            refine ⟨lt_trans hgt h1, ?_⟩
            intro d hd
            match d, hd with
            | 0, _ => simpa using h1
            | d + 1, hd =>
                have := h2 d (by omega)
                simpa [Nat.add_assoc, Nat.add_comm 1 d] using this
        · next hgt =>
            refine ⟨h1, ?_⟩
            intro d hd
            match d, hd with
            | 0, _ => simpa using lt_of_le_of_lt (not_lt.mp hgt) h1
            | d + 1, hd =>
                have := h2 d (by omega)
                simpa [Nat.add_assoc, Nat.add_comm 1 d] using this
      · rintro ⟨h1, h2⟩
        have hv : Qc.normSq (getEC M i k) < cq := by simpa using h2 0 (by omega)
        constructor
        · split
          · exact hv
          · exact h1
        · intro d hd
          have := h2 (d + 1) (by omega)
          simpa [Nat.add_assoc, Nat.add_comm 1 d] using this

theorem pivotSelectC_lt_iff (M : MatC) (k n : ℕ) (hk : k < n) (cq : ℚ) :
    ((pivotSelectC M k n).2 < cq ↔
      ∀ i, k ≤ i → i < n → Qc.normSq (getEC M i k) < cq) := by
  unfold pivotSelectC
  rw [pivotScanC_lt_iff]
  constructor
  · rintro ⟨h1, h2⟩ i hki hin
    rcases Nat.lt_or_ge k i with h | h
    · have := h2 (i - (k + 1)) (by omega)
      have hi : k + 1 + (i - (k + 1)) = i := by omega
      rwa [hi] at this
    · have : i = k := by omega
      simpa [this] using h1
  · intro h
    refine ⟨h k le_rfl hk, ?_⟩
    intro d hd
    exact h (k + 1 + d) (by omega) (by omega)

theorem elimLoopC_singular_iff (skip : Bool) (n : ℕ) :
    ∀ (fuel k : ℕ) (M : MatC), k + fuel = n →
      elimLoopC skip n fuel k M ≠ .error .degenerate →
      (elimLoopC skip n fuel k M = .error .singular ↔
        ∃ j, k ≤ j ∧ j < n ∧
          (pivotSelectC (elimStepsCT skip n (j - k) k M) j n).2 < epsSq) := by
  intro fuel
  induction fuel with
  | zero =>
      intro k M hk _
      constructor
      · intro h; simp [elimLoopC] at h
      · rintro ⟨j, h1, h2, _⟩; omega
  | succ fuel ih =>
      intro k M hk hdeg
      simp only [elimLoopC] at hdeg ⊢
      split
      · next hpiv =>
          simp only [true_iff, eq_self_iff_true]
          exact ⟨k, le_rfl, by omega, by simpa [elimStepsCT] using hpiv⟩
      · next hpiv =>
          rw [if_neg hpiv] at hdeg
          cases hbelow : elimBelowC skip k n
              (if (pivotSelectC M k n).1 ≠ k
               then swapRowsC M k (pivotSelectC M k n).1 else M) with
          | error e =>
              rw [hbelow] at hdeg
              exact absurd rfl hdeg
          | ok M2 =>
              rw [hbelow] at hdeg
              dsimp only at hdeg ⊢
              rw [ih (k + 1) M2 (by omega) hdeg]
              have hstepCT : elimStepCT skip n k M = M2 := by
                unfold elimStepCT
                exact elimBelowC_ok skip k n _ M2 hbelow
              constructor
              · rintro ⟨j, h1, h2, h3⟩
                refine ⟨j, by omega, h2, ?_⟩
                have hstep : j - k = (j - (k + 1)) + 1 := by omega
                rw [hstep]
                simpa [elimStepsCT, hstepCT] using h3
              · rintro ⟨j, h1, h2, h3⟩
                rcases Nat.eq_or_lt_of_le h1 with h | h
                · exfalso
                  apply hpiv
                  simpa [← h, elimStepsCT] using h3
                · refine ⟨j, by omega, h2, ?_⟩
                  have hstep : j - k = (j - (k + 1)) + 1 := by omega
                  rw [hstep] at h3
                  simpa [elimStepsCT, hstepCT] using h3

theorem backSubLoopC_length (n : ℕ) (M : MatC) :
    ∀ (c : ℕ) (x x' : List Qc), backSubLoopC n M c x = .ok x' →
      x'.length = x.length := by
  intro c
  induction c with
  | zero => intro x x' h; cases h; rfl
  | succ c ih =>
      intro x x' h
      simp only [backSubLoopC] at h
      split at h
      · cases h
      · have := ih _ _ h
        simpa using this

theorem swapRowsC_shape (nn m : ℕ) (M : MatC) (i j : ℕ) (hi : i < nn)
    (hj : j < nn) (hM : MatShapeC nn m M) : MatShapeC nn m (swapRowsC M i j) := by
  unfold swapRowsC
  refine matShapeC_set nn m _ j _ ?_ (getRowC_length nn m M i hM hi)
  exact matShapeC_set nn m M i _ hM (getRowC_length nn m M j hM hj)

theorem elimRowsC_ok_shape (skip : Bool) (k n : ℕ) (pr : List Qc) (pivot : Qc)
    (nn m : ℕ) :
    ∀ (c i : ℕ) (M M2 : MatC), i + c ≤ nn → MatShapeC nn m M →
      elimRowsC skip k n pr pivot c i M = .ok M2 → MatShapeC nn m M2 := by
  intro c
  induction c with
  | zero => intro i M M2 _ hM h; cases h; exact hM
  | succ c ih =>
      intro i M M2 hc hM h
      simp only [elimRowsC] at h
      cases helim : rowEliminateC skip k n pr pivot (getRowC M i) with
      | error e => rw [helim] at h; cases h
      | ok r =>
          rw [helim] at h
          refine ih (i + 1) _ M2 (by omega) ?_ h
          refine matShapeC_set nn m M i r hM ?_
          rw [← rowEliminateC_ok skip k n pr pivot _ r helim,
            rowEliminateCT_length]
          exact getRowC_length nn m M i hM (by omega)

theorem augmentC_shape (A : MatC) (b : List Qc) (n : ℕ) (hA : A.length = n)
    (hrows : ∀ r ∈ A, r.length = n) (hb : n ≤ b.length) :
    MatShapeC n (n + 1) (augmentC A b) := by
  constructor
  · simp [augmentC, hA]; omega
  · intro r hr
    simp only [augmentC, List.mem_map] at hr
    obtain ⟨⟨ra, bi⟩, hmem, hEq⟩ := hr
    have : ra ∈ A := (List.of_mem_zip hmem).1
    simp [← hEq, hrows ra this]

theorem elimLoopC_ok_shape (skip : Bool) (n : ℕ) :
    ∀ (fuel k : ℕ) (M M' : MatC), k + fuel = n → MatShapeC n (n + 1) M →
      elimLoopC skip n fuel k M = .ok M' → MatShapeC n (n + 1) M' := by
  intro fuel
  induction fuel with
  | zero =>
      intro k M M' _ hM h
      cases h
      exact hM
  | succ fuel ih =>
      intro k M M' hkf hM h
      simp only [elimLoopC] at h
      split at h
      · cases h
      · have hM1 : MatShapeC n (n + 1)
            (if (pivotSelectC M k n).1 ≠ k
             then swapRowsC M k (pivotSelectC M k n).1 else M) := by
          split
          · exact swapRowsC_shape n (n + 1) M k _ (by omega)
              (pivotSelectC_fst_lt M k n (by omega)) hM
          · exact hM
        cases hbelow : elimBelowC skip k n
            (if (pivotSelectC M k n).1 ≠ k
             then swapRowsC M k (pivotSelectC M k n).1 else M) with
        | error e => rw [hbelow] at h; cases h
        | ok M2 =>
            rw [hbelow] at h
            refine ih (k + 1) M2 M' (by omega) ?_ h
            exact elimRowsC_ok_shape skip k n _ _ n (n + 1) _ (k + 1) _ M2
              (by omega) hM1 hbelow

theorem normSq_nonneg (z : Qc) : 0 ≤ Qc.normSq z := by
  unfold Qc.normSq
  have h1 := mul_self_nonneg z.re
  have h2 := mul_self_nonneg z.im
  linarith

/-- The moduli comparisons of the source (`v > vmax` on `abs()` values) are
equivalent to the squared-magnitude comparisons of the embedding. -/
theorem cabs_lt_cabs_iff (a b : Qc) :
    cabs a < cabs b ↔ Qc.normSq a < Qc.normSq b := by
  unfold cabs
  rw [Real.sqrt_lt_sqrt_iff (by exact_mod_cast normSq_nonneg a)]
  exact_mod_cast Iff.rfl

/-- `abs() < EPS` is equivalent to `normSq < EPS²`, the embedding's test. -/
theorem cabs_lt_eps_iff (z : Qc) :
    cabs z < ((EPS : ℚ) : ℝ) ↔ Qc.normSq z < epsSq := by
  unfold cabs
  rw [Real.sqrt_lt' (by norm_num [EPS])]
  rw [show (((EPS : ℚ) : ℝ)) ^ 2 = ((epsSq : ℚ) : ℝ) by
    rw [epsSq]; push_cast; ring]
  exact_mod_cast Iff.rfl

theorem solveRealGen_success_elim (skip : Bool) (A : Mat) (b : List ℚ)
    (x : List ℚ) (Af : Mat) (h : solveRealGen skip A b = .success x Af) :
    elimLoop skip A.length A.length 0 (augment A b) = .ok Af ∧
      x = backSub A.length Af := by
  unfold solveRealGen at h
  dsimp only at h
  split at h
  · cases h
  · cases helim : elimLoop skip A.length A.length 0 (augment A b) with
    | error e => rw [helim] at h; cases h
    | ok M => rw [helim] at h; cases h; exact ⟨rfl, rfl⟩

theorem solveRealGen_failure_iff (skip : Bool) (A : Mat) (b : List ℚ)
    (e : SolveErr) (hb : A.length ≤ b.length) :
    solveRealGen skip A b = .failure e ↔
      elimLoop skip A.length A.length 0 (augment A b) = .error e := by
  unfold solveRealGen
  dsimp only
  rw [if_neg (by omega)]
  cases helim : elimLoop skip A.length A.length 0 (augment A b) with
  | error e2 =>
      constructor
      · intro h; cases h; rfl
      · intro h; cases h; rfl
  | ok M =>
      constructor
      · intro h; cases h
      · intro h; cases h

theorem solveComplexGen_success_elim (skip : Bool) (A : MatC) (b : List Qc)
    (x : List Qc) (Af : MatC) (h : solveComplexGen skip A b = .csuccess x Af) :
    elimLoopC skip A.length A.length 0 (augmentC A b) = .ok Af ∧
      backSubC A.length Af = .ok x := by
  unfold solveComplexGen at h
  dsimp only at h
  split at h
  · cases h
  · cases helim : elimLoopC skip A.length A.length 0 (augmentC A b) with
    | error e => rw [helim] at h; cases h
    | ok M =>
        rw [helim] at h
        dsimp only at h
        cases hback : backSubC A.length M with
        | error e => rw [hback] at h; cases h
        | ok x2 => rw [hback] at h; cases h; exact ⟨rfl, hback⟩

theorem solveComplexGen_singular_iff (skip : Bool) (A : MatC) (b : List Qc)
    (hb : A.length ≤ b.length) :
    solveComplexGen skip A b = .cfailure .singular ↔
      elimLoopC skip A.length A.length 0 (augmentC A b) = .error .singular := by
  unfold solveComplexGen
  dsimp only
  rw [if_neg (by omega)]
  cases helim : elimLoopC skip A.length A.length 0 (augmentC A b) with
  | error e2 =>
      constructor
      · intro h; cases h; rfl
      · intro h; cases h; rfl
  | ok M =>
      dsimp only
      cases hback : backSubC A.length M with
      | error e =>
          constructor
          · intro h; cases h
          · intro h; cases h
      | ok x =>
          constructor
          · intro h; cases h
          · intro h; cases h

theorem solveComplexGen_no_degenerate (skip : Bool) (A : MatC) (b : List Qc)
    (hb : A.length ≤ b.length)
    (hdeg : solveComplexGen skip A b ≠ .cfailure .degenerate) :
    elimLoopC skip A.length A.length 0 (augmentC A b) ≠ .error .degenerate := by
  intro helim
  apply hdeg
  unfold solveComplexGen
  dsimp only
  rw [if_neg (by omega), helim]

theorem assignVsrcIndicesGo_getD (nNodes : ℤ) :
    ∀ (V : List VSource) (i k : ℕ), k < V.length →
      ((assignVsrcIndicesGo nNodes i V).getD k default).index =
        nNodes + (i + k) := by
  intro V
  induction V with
  | nil => intro i k hk; simp at hk
  | cons vs rest ih =>
      intro i k hk
      cases k with
      | zero => simp [assignVsrcIndicesGo]
      | succ k =>
          have h2 := ih (i + 1) k (by simpa using hk)
          simp only [assignVsrcIndicesGo, List.getD_cons_succ]
          rw [h2]
          push_cast
          ring

/-! ## Claim theorems -/

/-- C1 (counterexample): the claim's switch-update rule with `tol = 1e−6`
disagrees with `updateSwitchStatesFromSolution` in simulateTRAN.ts at
concrete control voltages.  With `Von = 2`, `Voff = 1`: an OFF switch at
`vc = 2 (≥ Von − tol)` stays OFF in the code but the claim turns it ON, and
an ON switch at `vc = 1 + 1e−7 (≤ Voff + tol)` stays ON in the code but the
claim turns it OFF. -/
theorem C1_counterexample :
    switchNextState false ⟨1, 1000000000, 2, 1⟩ 2 = false ∧
    claimSwitchNextState false ⟨1, 1000000000, 2, 1⟩ 2 = true ∧
    switchNextState true ⟨1, 1000000000, 2, 1⟩ (1 + 1 / 10 ^ 7) = true ∧
    claimSwitchNextState true ⟨1, 1000000000, 2, 1⟩ (1 + 1 / 10 ^ 7) = false := by
  refine ⟨?_, ?_, ?_, ?_⟩ <;>
    norm_num [switchNextState, claimSwitchNextState, ctrlTol]

/-- C1 (amended): in the TRAN Newton loop of simulateTRAN.ts, after each
solve the switch states are updated with *no* tolerance: for every switch,
with `vc = v(ncPos) − v(ncNeg)` from the latest solution, an ON switch turns
OFF exactly when `vc ≤ Voff`, an OFF switch turns ON exactly when `vc > Von`
(strict), and a switch with `Voff < vc ≤ Von` keeps its state; the updated
switch list is the pointwise application of this rule. -/
theorem C1_switch_update (S : List Switch) (x : List ℚ) (m : SwitchModel)
    (vc : ℚ) (b : Bool) :
    ((updateSwitchStatesFromSolution S x).1 =
      S.map fun sw =>
        let vc := controlVoltage x sw.ncPos sw.ncNeg
        { sw with isOn := switchNextState sw.isOn sw.model vc }) ∧
    (switchNextState true m vc = false ↔ vc ≤ m.Voff) ∧
    (switchNextState false m vc = true ↔ m.Von < vc) ∧
    (m.Voff < vc → vc ≤ m.Von → switchNextState b m vc = b) := by
  refine ⟨rfl, ?_, ?_, ?_⟩
  · unfold switchNextState
    by_cases h : vc ≤ m.Voff <;> simp [h]
  · unfold switchNextState
    by_cases h : vc > m.Von <;> simp [h]
  · intro h1 h2
    unfold switchNextState
    cases b <;> simp [not_le.mpr h1, not_lt.mpr h2, not_le_of_lt h1]

theorem C1_switch_update_witness :
    switchNextState true ⟨1, 1, 2, 1⟩ (3 / 2) = true := by
  have h := C1_switch_update [] [] ⟨1, 1, 2, 1⟩ (3 / 2) true
  exact h.2.2.2 (by norm_num) (by norm_num)

/-- C3 (counterexample): with `dtRequested = 0.01` and `tstop = 1`, the code
computes `steps = 500` (it caps the internal step at `tstop/500`), while the
claim's formula `dtEff = dt (> ε); steps = max(1, ⌈tstop/dtEff⌉)` gives 100;
the effective step also differs (`1/500` vs the claim's `1/100`). -/
theorem C3_counterexample :
    (computeEffectiveTimeStep (1 / 100) 1).steps = 500 ∧
    claimSteps (1 / 100) 1 = 100 ∧
    (computeEffectiveTimeStep (1 / 100) 1).steps ≠ claimSteps (1 / 100) 1 ∧
    (computeEffectiveTimeStep (1 / 100) 1).dt ≠ claimDtEff (1 / 100) 1 := by
  have h1 : (computeEffectiveTimeStep (1 / 100) 1).steps = 500 := by
    norm_num [computeEffectiveTimeStep, EPS, max_def, min_def]
  have h2 : claimSteps (1 / 100) 1 = 100 := by
    norm_num [claimSteps, claimDtEff, EPS]
  have h3 : (computeEffectiveTimeStep (1 / 100) 1).dt = 1 / 500 := by
    norm_num [computeEffectiveTimeStep, EPS, max_def, min_def]
  have h4 : claimDtEff (1 / 100) 1 = 1 / 100 := by
    norm_num [claimDtEff, EPS]
  refine ⟨h1, h2, ?_, ?_⟩
  · rw [h1, h2]; norm_num
  · rw [h3, h4]; norm_num

/-- C3 (amended): for every TRAN request with `tstop > 0`, the effective
target step is `dtTarget = min(dt, max(tstop/500, ε))` when `dt > ε` and
`max(tstop/500, ε)` otherwise (the code defaults to 500 steps, not 1000, and
caps a requested step at `tstop/500`); `steps = max(1, ⌈tstop/dtTarget⌉)`
with `steps ≥ 1`, the returned step is `dt = tstop/steps`, and
`steps · dt = tstop`, so the uniform grid `t = step · dt` ends exactly at
`tstop`. -/
theorem C3_time_grid (d t : ℚ) (ht : 0 < t) :
    ((computeEffectiveTimeStep d t).steps =
      max 1 ⌈t / max (if d > EPS then min d (max (t / 500) EPS)
                      else max (t / 500) EPS) EPS⌉) ∧
    1 ≤ (computeEffectiveTimeStep d t).steps ∧
    (computeEffectiveTimeStep d t).dt =
      t / ((computeEffectiveTimeStep d t).steps : ℚ) ∧
    ((computeEffectiveTimeStep d t).steps : ℚ) *
      (computeEffectiveTimeStep d t).dt = t := by
  have hsteps : (computeEffectiveTimeStep d t).steps =
      max 1 ⌈t / max (if d > EPS then min d (max (t / 500) EPS)
                      else max (t / 500) EPS) EPS⌉ := by
    unfold computeEffectiveTimeStep
    by_cases hd : d > EPS <;> simp [ht, hd]
  have hge : 1 ≤ (computeEffectiveTimeStep d t).steps := by
    rw [hsteps]; exact le_max_left _ _
  have hpos : (0 : ℤ) < (computeEffectiveTimeStep d t).steps := by omega
  have hdt0 : (computeEffectiveTimeStep d t).dt =
      if (computeEffectiveTimeStep d t).steps > 0
      then t / ((computeEffectiveTimeStep d t).steps : ℚ) else t := rfl
  have hdt : (computeEffectiveTimeStep d t).dt =
      t / ((computeEffectiveTimeStep d t).steps : ℚ) := by
    rw [hdt0, if_pos hpos]
  refine ⟨hsteps, hge, hdt, ?_⟩
  rw [hdt]
  have hcast : ((computeEffectiveTimeStep d t).steps : ℚ) ≠ 0 := by
    have h1 : (1 : ℚ) ≤ ((computeEffectiveTimeStep d t).steps : ℚ) := by
      exact_mod_cast hge
    linarith
  field_simp

theorem C3_time_grid_witness :
    (0 : ℚ) < 1 ∧
    (((computeEffectiveTimeStep 0 1).steps =
        max 1 ⌈(1 : ℚ) / max (if (0 : ℚ) > EPS then min 0 (max (1 / 500) EPS)
                        else max (1 / 500) EPS) EPS⌉) ∧
      1 ≤ (computeEffectiveTimeStep 0 1).steps ∧
      (computeEffectiveTimeStep 0 1).dt =
        1 / (((computeEffectiveTimeStep 0 1).steps : ℤ) : ℚ) ∧
      (((computeEffectiveTimeStep 0 1).steps : ℤ) : ℚ) *
        (computeEffectiveTimeStep 0 1).dt = 1) :=
  ⟨by norm_num, C3_time_grid 0 1 (by norm_num)⟩

/-- C7 (confirmed): after `parseNetlist`'s finalization loop, the k-th
voltage source carries index `nNodes + k` (`nNodes` = number of non-ground
nodes); these indices are pairwise distinct and distinct from every
node-variable index `0 .. nNodes−1`.  (The analyses only read `vs.index`;
the single assignment site is this loop.) -/
theorem C7_vsrc_indices (nodeCount : ℕ) (V : List VSource) :
    (∀ k, k < V.length →
      ((assignVsrcIndices nodeCount V).getD k default).index =
        ((nodeCount : ℤ) - 1) + k) ∧
    (∀ k1 k2, k1 < V.length → k2 < V.length → k1 ≠ k2 →
      ((assignVsrcIndices nodeCount V).getD k1 default).index ≠
        ((assignVsrcIndices nodeCount V).getD k2 default).index) ∧
    (∀ k (j : ℤ), k < V.length → j < (nodeCount : ℤ) - 1 →
      ((assignVsrcIndices nodeCount V).getD k default).index ≠ j) := by
  have hidx : ∀ k, k < V.length →
      ((assignVsrcIndices nodeCount V).getD k default).index =
        ((nodeCount : ℤ) - 1) + k := by
    intro k hk
    have := assignVsrcIndicesGo_getD ((nodeCount : ℤ) - 1) V 0 k hk
    simpa [assignVsrcIndices] using this
  refine ⟨hidx, ?_, ?_⟩
  · intro k1 k2 h1 h2 hne
    rw [hidx k1 h1, hidx k2 h2]
    intro hEq
    apply hne
    omega
  · intro k j hk hj
    rw [hidx k hk]
    omega

theorem C7_vsrc_indices_witness :
    (0 : ℕ) < 2 ∧ (1 : ℕ) < 2 ∧ (0 : ℕ) ≠ 1 ∧ (0 : ℤ) < (3 : ℤ) - 1 ∧
    ((assignVsrcIndices 3 [default, default]).getD 0 default).index =
      ((3 : ℤ) - 1) + 0 ∧
    ((assignVsrcIndices 3 [default, default]).getD 0 default).index ≠
      ((assignVsrcIndices 3 [default, default]).getD 1 default).index ∧
    ((assignVsrcIndices 3 [default, default]).getD 0 default).index ≠ 0 := by
  refine ⟨by norm_num, by norm_num, by norm_num, by norm_num, ?_, ?_, ?_⟩
  · exact (C7_vsrc_indices 3 [default, default]).1 0 (by norm_num)
  · exact (C7_vsrc_indices 3 [default, default]).2.1 0 1 (by norm_num)
      (by norm_num) (by norm_num)
  · exact (C7_vsrc_indices 3 [default, default]).2.2 0 0 (by norm_num)
      (by norm_num)

/-- C4 (counterexample): `solveReal` does not leave the caller's matrix
unchanged: on `A = [[2,0],[1,1]]`, `b = [2,3]` the call succeeds and the
caller-visible matrix afterwards is the augmented, eliminated
`[[2,0,2],[0,1,2]]`, which differs from `A` (e.g. `A[1][0]` is now 0 and
every row has an extra column). -/
theorem C4_counterexample :
    solveReal [[2, 0], [1, 1]] [2, 3] =
      .success [1, 2] [[2, 0, 2], [0, 1, 2]] ∧
    ([[2, 0, 2], [0, 1, 2]] : Mat) ≠ [[2, 0], [1, 1]] := by
  constructor
  · norm_num [solveReal, solveRealGen, augment, elimLoop, elimStep, elimBelow,
      elimRows, rowEliminate, rowUpdate, pivotSelect, pivotScan, swapRows,
      getRow, getE, backSub, backSubLoop, backSubSum, EPS, abs_of_nonneg,
      abs_of_nonpos, List.replicate, List.set_cons_succ, List.set_cons_zero]
  · simp

/-- C4 (amended): `solveReal` and `solveComplex` never write to the caller's
`b` (the embedding of the source contains no store to `b`), but they do
mutate the caller's `A`: on success every caller-visible row is an augmented
eliminated copy of length `n + 1`, so for every nonsingular system with
`n ≥ 1` the caller's matrix after the call differs from the matrix passed
in. -/
theorem C4_solver_mutation (A : Mat) (b : List ℚ) (Ac : MatC) (bc : List Qc)
    (hA : ∀ r ∈ A, r.length = A.length) (hb : A.length ≤ b.length)
    (hAc : ∀ r ∈ Ac, r.length = Ac.length) (hbc : Ac.length ≤ bc.length) :
    (∀ x Af, solveReal A b = .success x Af →
      (∀ r ∈ Af, r.length = A.length + 1) ∧ (1 ≤ A.length → Af ≠ A)) ∧
    (∀ x Af, solveComplex Ac bc = .csuccess x Af →
      (∀ r ∈ Af, r.length = Ac.length + 1) ∧ (1 ≤ Ac.length → Af ≠ Ac)) := by
  constructor
  · intro x Af hsucc
    obtain ⟨helim, -⟩ := solveRealGen_success_elim true A b x Af hsucc
    have hshape : MatShape A.length (A.length + 1) Af :=
      elimLoop_ok_shape true A.length A.length 0 _ Af (by omega)
        (augment_shape A b A.length rfl hA hb) helim
    refine ⟨hshape.2, ?_⟩
    intro hn hEq
    have hmem : getRow Af 0 ∈ Af := getRow_mem Af 0 (by rw [hshape.1]; omega)
    have hlen1 : (getRow Af 0).length = A.length + 1 := hshape.2 _ hmem
    have hmem2 : getRow Af 0 ∈ A := by rw [← hEq]; exact hmem
    have hlen2 : (getRow Af 0).length = A.length := hA _ hmem2
    omega
  · intro x Af hsucc
    obtain ⟨helim, -⟩ := solveComplexGen_success_elim true Ac bc x Af hsucc
    have hshape : MatShapeC Ac.length (Ac.length + 1) Af :=
      elimLoopC_ok_shape true Ac.length Ac.length 0 _ Af (by omega)
        (augmentC_shape Ac bc Ac.length rfl hAc hbc) helim
    refine ⟨hshape.2, ?_⟩
    intro hn hEq
    have hmem : getRowC Af 0 ∈ Af := getRowC_mem Af 0 (by rw [hshape.1]; omega)
    have hlen1 : (getRowC Af 0).length = Ac.length + 1 := hshape.2 _ hmem
    have hmem2 : getRowC Af 0 ∈ Ac := by rw [← hEq]; exact hmem
    have hlen2 : (getRowC Af 0).length = Ac.length := hAc _ hmem2
    omega

theorem C4_solver_mutation_witness :
    (∀ r ∈ ([[2, 0], [1, 1]] : Mat), r.length = 2) ∧
    (∀ x Af, solveReal [[2, 0], [1, 1]] [2, 3] = .success x Af →
      (∀ r ∈ Af, r.length = 2 + 1) ∧ (1 ≤ 2 → Af ≠ [[2, 0], [1, 1]])) := by
  have hA : ∀ r ∈ ([[2, 0], [1, 1]] : Mat), r.length = [[2, 0], [1, 1]].length := by
    intro r hr
    fin_cases hr <;> simp
  refine ⟨by simpa using hA, ?_⟩
  have h := (C4_solver_mutation [[2, 0], [1, 1]] [2, 3] [[⟨1, 0⟩]] [⟨1, 0⟩]
    hA (by norm_num) (by intro r hr; simp at hr; simp [hr]) (by norm_num)).1
  simpa using h

/-- C5 (counterexample): `solveComplex` can fail even though no pivot-column
maximum is below ε: on the 1×1 system `A = [[1e−10]]`, `b = [[1]]` the pivot
modulus is `1e−10 ≥ ε = 1e−15`, yet back substitution's `s.div(pivot)` hits
the `|pivot|² < ε` guard of `Complex.div` and the solver throws
ArithmeticDegenerate instead of returning a solution. -/
theorem C5_counterexample :
    solveComplex [[⟨1 / 10 ^ 10, 0⟩]] [⟨1, 0⟩] = .cfailure .degenerate ∧
    ¬ cabs ⟨1 / 10 ^ 10, 0⟩ < ((EPS : ℚ) : ℝ) := by
  constructor
  · norm_num [solveComplex, solveComplexGen, augmentC, elimLoopC, elimBelowC,
      elimRowsC, rowEliminateC, rowUpdateC, pivotSelectC, pivotScanC,
      swapRowsC, getRowC, getEC, backSubC, backSubLoopC, backSubSumC,
      Qc.div, Qc.normSq, Qc.zero, EPS, epsSq, List.replicate]
  · rw [cabs_lt_eps_iff]
    norm_num [Qc.normSq, epsSq, EPS]

/-- C5 (amended): `solveReal` fails (necessarily with SingularMatrix) iff at
some pivot column `k` every `|A[i][k]|` for `i ∈ [k, n)` of the
partially-eliminated augmented matrix is below `ε = 1e−15` (i.e. the column
maximum is), and otherwise returns a vector of length `n`.  `solveComplex`
satisfies the same characterization provided no complex division hits the
ArithmeticDegenerate guard (`|divisor|² < ε`); a divisor of modulus in
`[ε, √ε)` makes it fail with ArithmeticDegenerate instead of returning a
solution. -/
theorem C5_solver_failure (A : Mat) (b : List ℚ) (Ac : MatC) (bc : List Qc)
    (hb : A.length ≤ b.length) (hbc : Ac.length ≤ bc.length) :
    ((solveReal A b = .failure .singular ↔
        ∃ k, k < A.length ∧ ∀ i, k ≤ i → i < A.length →
          |getE (elimSteps true A.length k 0 (augment A b)) i k| < EPS) ∧
      (∀ e, solveReal A b = .failure e → e = .singular) ∧
      (∀ x Af, solveReal A b = .success x Af → x.length = A.length)) ∧
    (solveComplex Ac bc ≠ .cfailure .degenerate →
      ((solveComplex Ac bc = .cfailure .singular ↔
          ∃ k, k < Ac.length ∧ ∀ i, k ≤ i → i < Ac.length →
            cabs (getEC (elimStepsCT true Ac.length k 0 (augmentC Ac bc)) i k)
              < ((EPS : ℚ) : ℝ)) ∧
        (∀ x Af, solveComplex Ac bc = .csuccess x Af →
          x.length = Ac.length))) := by
  refine ⟨⟨?_, ?_, ?_⟩, ?_⟩
  · unfold solveReal
    rw [solveRealGen_failure_iff true A b .singular hb,
      elimLoop_singular_iff true A.length A.length 0 (augment A b) (by omega)]
    constructor
    · rintro ⟨j, -, hj, hp⟩
      refine ⟨j, hj, ?_⟩
      rw [← pivotSelect_lt_iff _ j _ hj EPS]
      simpa using hp
    · rintro ⟨j, hj, hall⟩
      refine ⟨j, by omega, hj, ?_⟩
      have := (pivotSelect_lt_iff
        (elimSteps true A.length j 0 (augment A b)) j A.length hj EPS).mpr hall
      simpa using this
  · intro e hfail
    unfold solveReal at hfail
    rw [solveRealGen_failure_iff true A b e hb] at hfail
    exact elimLoop_no_dimErr true A.length A.length 0 (augment A b) e hfail
  · intro x Af hsucc
    obtain ⟨-, hx⟩ := solveRealGen_success_elim true A b x Af hsucc
    rw [hx, backSub_length]
  · intro hdeg
    have hdeg2 := solveComplexGen_no_degenerate true Ac bc hbc hdeg
    constructor
    · unfold solveComplex
      rw [solveComplexGen_singular_iff true Ac bc hbc,
        elimLoopC_singular_iff true Ac.length Ac.length 0 (augmentC Ac bc)
          (by omega) hdeg2]
      constructor
      · rintro ⟨j, -, hj, hp⟩
        refine ⟨j, hj, ?_⟩
        intro i h1 h2
        rw [cabs_lt_eps_iff]
        exact (pivotSelectC_lt_iff _ j _ hj epsSq).mp (by simpa using hp) i h1 h2
      · rintro ⟨j, hj, hall⟩
        refine ⟨j, by omega, hj, ?_⟩
        have hall2 : ∀ i, j ≤ i → i < Ac.length →
            Qc.normSq (getEC (elimStepsCT true Ac.length j 0 (augmentC Ac bc))
              i j) < epsSq := by
          intro i h1 h2
          rw [← cabs_lt_eps_iff]
          exact hall i h1 h2
        have := (pivotSelectC_lt_iff
          (elimStepsCT true Ac.length j 0 (augmentC Ac bc)) j Ac.length hj
          epsSq).mpr hall2
        simpa using this
    · intro x Af hsucc
      obtain ⟨-, hback⟩ := solveComplexGen_success_elim true Ac bc x Af hsucc
      have := backSubLoopC_length Ac.length Af Ac.length _ x hback
      simpa using this

theorem C5_solver_failure_witness :
    (1 : ℕ) ≤ 1 ∧
    ((solveReal [[1]] [1] = .failure .singular ↔
        ∃ k, k < 1 ∧ ∀ i, k ≤ i → i < 1 →
          |getE (elimSteps true 1 k 0 (augment [[1]] [1])) i k| < EPS) ∧
      (∀ e, solveReal [[1]] [1] = .failure e → e = .singular) ∧
      (∀ x Af, solveReal [[1]] [1] = .success x Af → x.length = 1)) := by
  refine ⟨le_rfl, ?_⟩
  have h := (C5_solver_failure [[1]] [1] [[⟨1, 0⟩]] [⟨1, 0⟩]
    (by norm_num) (by norm_num)).1
  simpa using h

/-- C6 (counterexample): skipping the elimination for a nonzero multiplier
`|f| < ε` is not semantically equivalent: on `A = [[1,0],[1e−16,1]]`,
`b = [1,1]` (nonsingular, determinant 1) both versions succeed but the
skipping solver returns `[1, 1]` while the always-eliminating solver returns
`[1, 1 − 1e−16]`. -/
theorem C6_counterexample :
    solveReal [[1, 0], [1 / 10 ^ 16, 1]] [1, 1] =
      .success [1, 1] [[1, 0, 1], [1 / 10 ^ 16, 1, 1]] ∧
    solveRealNoSkip [[1, 0], [1 / 10 ^ 16, 1]] [1, 1] =
      .success [1, 1 - 1 / 10 ^ 16] [[1, 0, 1], [0, 1, 1 - 1 / 10 ^ 16]] ∧
    (1 : ℚ) * 1 - 0 * (1 / 10 ^ 16) ≠ 0 ∧
    ([1, 1] : List ℚ) ≠ [1, 1 - 1 / 10 ^ 16] := by
  refine ⟨?_, ?_, by norm_num, by norm_num⟩
  · norm_num [solveReal, solveRealGen, augment, elimLoop, elimStep, elimBelow,
      elimRows, rowEliminate, rowUpdate, pivotSelect, pivotScan, swapRows,
      getRow, getE, backSub, backSubLoop, backSubSum, EPS, abs_of_nonneg,
      abs_of_nonpos, List.replicate, List.set_cons_succ, List.set_cons_zero]
  · norm_num [solveRealNoSkip, solveRealGen, augment, elimLoop, elimStep,
      elimBelow, elimRows, rowEliminate, rowUpdate, pivotSelect, pivotScan,
      swapRows, getRow, getE, backSub, backSubLoop, backSubSum, EPS,
      abs_of_nonneg, abs_of_nonpos, List.replicate, List.set_cons_succ,
      List.set_cons_zero]

/-- C6 (amended): the skip is semantically equivalent to performing the
elimination whenever every multiplier that falls below the threshold is
exactly zero (`allMultOk` certifies this along the run); in that case the
solver with the skip returns exactly the same result as the solver that
always performs the elimination.  (A nonzero skipped multiplier can change
the returned solution — see the counterexample.) -/
theorem C6_skip_equiv (A : Mat) (b : List ℚ)
    (h : allMultOk A.length A.length 0 (augment A b) = true) :
    solveReal A b = solveRealNoSkip A b := by
  unfold solveReal solveRealNoSkip solveRealGen
  dsimp only
  rw [elimLoop_skip_eq A.length A.length 0 (augment A b) h]

theorem C6_skip_equiv_witness :
    allMultOk 2 2 0 (augment [[2, 1], [1, 1]] [3, 2]) = true ∧
    solveReal [[2, 1], [1, 1]] [3, 2] = solveRealNoSkip [[2, 1], [1, 1]] [3, 2] := by
  have hok : allMultOk 2 2 0 (augment [[2, 1], [1, 1]] [3, 2]) = true := by
    norm_num [allMultOk, multOkCol, multOkRows, augment, elimBelow, elimRows,
      rowEliminate, rowUpdate, pivotSelect, pivotScan, swapRows, getRow, getE,
      EPS, abs_of_nonneg, abs_of_nonpos, List.set_cons_succ, List.set_cons_zero]
  exact ⟨hok, C6_skip_equiv [[2, 1], [1, 1]] [3, 2] hok⟩

theorem clampSeed_eq_limited (vd : ℝ) :
    (if vd < -1.0 then (-1.0 : ℝ) else if vd > 0.8 then 0.8 else vd) =
      clampSeed vd := by
  unfold clampSeed
  by_cases h1 : vd > 0.8 <;> by_cases h2 : vd < -1.0
  · linarith
  · simp [h1, h2]
  · simp [h1, h2]
  · simp [h1, h2]

theorem clampSeed_idem (vd : ℝ) : clampSeed (clampSeed vd) = clampSeed vd := by
  unfold clampSeed
  by_cases h1 : vd > 0.8 <;> by_cases h2 : vd < -1.0
  · linarith
  · simp only [h1, h2, if_pos, if_true]
    norm_num
  · simp only [h1, h2, if_neg, if_false, if_true]
    norm_num
  · simp [h1, h2]

theorem diodeLinearize_closed (Is N vd : ℝ) :
    diodeLinearize Is N vd =
      (max (Is / (N * VT_300K) * Real.exp (clampSeed vd / (N * VT_300K)))
         (1e-12),
       Is * (Real.exp (clampSeed vd / (N * VT_300K)) - 1),
       Is * (Real.exp (clampSeed vd / (N * VT_300K)) - 1) -
         max (Is / (N * VT_300K) * Real.exp (clampSeed vd / (N * VT_300K)))
           (1e-12) * clampSeed vd) := by
  unfold diodeLinearize
  dsimp only
  rw [clampSeed_eq_limited]

/-- C2 (confirmed): in the TRAN diode linearization of simulateTRAN.ts, the
Newton seed `vd` is clamped to `[−1.0, 0.8]` before the exponential is
evaluated — a seed above 0.8 becomes 0.8, a seed below −1.0 becomes −1.0, an
in-range seed is unchanged — and the stamped `gd`, `id` and `ieq` are all
computed from the clamped value (so the linearization is invariant under
pre-clamping the seed). -/
theorem C2_diode_clamp (Is N vd : ℝ) :
    diodeLinearize Is N vd = diodeLinearize Is N (clampSeed vd) ∧
    -1.0 ≤ clampSeed vd ∧ clampSeed vd ≤ 0.8 ∧
    (vd > 0.8 → clampSeed vd = 0.8) ∧
    (vd < -1.0 → clampSeed vd = -1.0) ∧
    (-1.0 ≤ vd → vd ≤ 0.8 → clampSeed vd = vd) ∧
    (diodeLinearize Is N vd).1 =
      max (Is / (N * VT_300K) * Real.exp (clampSeed vd / (N * VT_300K)))
        (1e-12) ∧
    (diodeLinearize Is N vd).2.1 =
      Is * (Real.exp (clampSeed vd / (N * VT_300K)) - 1) ∧
    (diodeLinearize Is N vd).2.2 =
      (diodeLinearize Is N vd).2.1 -
        (diodeLinearize Is N vd).1 * clampSeed vd := by
  refine ⟨?_, ?_, ?_, ?_, ?_, ?_, ?_, ?_, ?_⟩
  · rw [diodeLinearize_closed, diodeLinearize_closed, clampSeed_idem]
  · unfold clampSeed
    by_cases h1 : vd > 0.8 <;> by_cases h2 : vd < -1.0 <;>
      simp [h1, h2] <;> norm_num <;> linarith
  · unfold clampSeed
    by_cases h1 : vd > 0.8 <;> by_cases h2 : vd < -1.0 <;>
      simp [h1, h2] <;> norm_num <;> linarith
  · intro h1
    unfold clampSeed
    rw [if_pos h1]
  · intro h2
    unfold clampSeed
    rw [if_neg (by linarith), if_pos h2]
  · intro hlo hhi
    unfold clampSeed
    rw [if_neg (by linarith), if_neg (by linarith)]
  · rw [diodeLinearize_closed]
  · rw [diodeLinearize_closed]
  · rw [diodeLinearize_closed]

theorem C2_diode_clamp_witness :
    diodeLinearize (1e-14) 1 2 = diodeLinearize (1e-14) 1 (clampSeed 2) ∧
    clampSeed 2 = 0.8 ∧ clampSeed (-3) = -1.0 := by
  refine ⟨(C2_diode_clamp (1e-14) 1 2).1, ?_, ?_⟩
  · exact (C2_diode_clamp (1e-14) 1 2).2.2.2.1 (by norm_num)
  · exact (C2_diode_clamp (1e-14) 1 (-3)).2.2.2.2.1 (by norm_num)

/-- C8 (confirmed): node lookup is case-insensitive with the first-observed
casing retained: a second `getOrCreate` with the same name, or any name
differing only in letter case, returns the same id and leaves the index
unchanged; on a first encounter the display name pushed onto `rev` is the
original casing and the id is `rev.length`; `matrixIndexOfNode 0 = −1` and
`matrixIndexOfNode id = id − 1` otherwise. -/
theorem C8_node_index (st : NodeIndexSt) (name name2 : String)
    (hkey : toUpperKey name2 = toUpperKey name) (id : ℕ) (hid : id ≠ 0) :
    (getOrCreate (getOrCreate st name).2 name2 =
      ((getOrCreate st name).1, (getOrCreate st name).2)) ∧
    (st.map.lookup (toUpperKey name) = none →
      ((getOrCreate st name).2.rev = st.rev ++ [name] ∧
       (getOrCreate st name).1 = st.rev.length ∧
       (getOrCreate st name).2.map =
         (toUpperKey name, st.rev.length) :: st.map)) ∧
    (∀ i, st.map.lookup (toUpperKey name) = some i →
      getOrCreate st name = (i, st)) ∧
    matrixIndexOfNode 0 = -1 ∧
    matrixIndexOfNode id = (id : ℤ) - 1 := by
  refine ⟨?_, ?_, ?_, by simp [matrixIndexOfNode], by simp [matrixIndexOfNode, hid]⟩
  · cases hl : st.map.lookup (toUpperKey name) with
    | some i =>
        simp only [getOrCreate, hl]
        rw [hkey, hl]
    | none =>
        simp only [getOrCreate, hl]
        rw [hkey]
        simp [List.lookup]
  · intro hl
    simp [getOrCreate, hl]
  · intro i hl
    simp [getOrCreate, hl]

theorem C8_node_index_witness :
    toUpperKey "NODE1" = toUpperKey "nOdE1" ∧ (2 : ℕ) ≠ 0 ∧
    (getOrCreate (getOrCreate NodeIndexSt.init "nOdE1").2 "NODE1" =
      ((getOrCreate NodeIndexSt.init "nOdE1").1,
       (getOrCreate NodeIndexSt.init "nOdE1").2)) ∧
    (getOrCreate NodeIndexSt.init "nOdE1").2.rev = ["0", "nOdE1"] ∧
    matrixIndexOfNode 2 = (2 : ℤ) - 1 := by
  have h := C8_node_index NodeIndexSt.init "nOdE1" "NODE1" (by decide) 2
    (by decide)
  refine ⟨by decide, by decide, h.1, ?_, h.2.2.2.2⟩
  have h2 := h.2.1 (by decide)
  rw [h2.1]
  decide

theorem max_EPS_pos (q : ℚ) : 0 < max q EPS :=
  lt_of_lt_of_le (by norm_num [EPS]) (le_max_right q EPS)

theorem pwlGoChecked_eq (t : ℚ) :
    ∀ (rest : List (ℚ × ℚ)) (prev : ℚ × ℚ),
      pwlGoChecked prev rest t = some (pwlGo prev rest t) := by
  intro rest
  induction rest with
  | nil => intro prev; rfl
  | cons curr rest ih =>
      intro prev
      simp only [pwlGoChecked, pwlGo]
      split
      · rw [if_neg (ne_of_gt (max_EPS_pos (curr.1 - prev.1)))]
      · exact ih curr

/-- C9 (confirmed): waveform evaluation and stamping are total.  The checked
evaluators (which fail on any zero divisor) always succeed and agree with the
evaluators — every divisor is floored at ε (and the `period = 0` corner
returns V1); and whenever both node indices of an admittance stamp are
in range for the matrix, `stampAdmittanceReal` returns an updated matrix and
never fails. -/
theorem C9_totality (pairs : List (ℚ × ℚ)) (t : ℚ) (p : PulseSpec)
    (A : Mat) (n1 n2 : ℕ) (Y : ℚ)
    (h1 : 0 ≤ matrixIndexOfNode n1 → (matrixIndexOfNode n1).toNat < A.length)
    (h2 : 0 ≤ matrixIndexOfNode n2 → (matrixIndexOfNode n2).toNat < A.length) :
    pwlValueChecked pairs t = some (pwlValue pairs t) ∧
    pulseValueChecked p t = some (pulseValue p t) ∧
    ∃ A2, stampAdmittanceReal A n1 n2 Y = .ok A2 := by
  refine ⟨?_, ?_, ?_⟩
  · cases pairs with
    | nil => rfl
    | cons p0 rest =>
        simp only [pwlValueChecked, pwlValue]
        split
        · rfl
        · exact pwlGoChecked_eq t rest p0
  · have htr : ¬ max p.tr EPS = 0 := ne_of_gt (max_EPS_pos p.tr)
    have htf : ¬ max p.tf EPS = 0 := ne_of_gt (max_EPS_pos p.tf)
    unfold pulseValueChecked pulseValue
    simp only [if_neg htr, if_neg htf]
    split_ifs <;> rfl
  · unfold stampAdmittanceReal
    by_cases hi1 : 0 ≤ matrixIndexOfNode n1 <;>
      by_cases hi2 : 0 ≤ matrixIndexOfNode n2 <;>
        simp [hi1, hi2, h1, h2, bind, Except.bind, pure, Except.pure]

theorem C9_totality_witness :
    (0 ≤ matrixIndexOfNode 1 → (matrixIndexOfNode 1).toNat < 2) ∧
    pwlValueChecked [(0, 0), (0, 5)] (1 / 2) =
      some (pwlValue [(0, 0), (0, 5)] (1 / 2)) ∧
    pulseValueChecked ⟨0, 5, 0, 0, 0, 1, 2, none⟩ (1 / 2) =
      some (pulseValue ⟨0, 5, 0, 0, 0, 1, 2, none⟩ (1 / 2)) ∧
    ∃ A2, stampAdmittanceReal [[0, 0], [0, 0]] 1 2 (1 / 1000) = .ok A2 := by
  have h := C9_totality [(0, 0), (0, 5)] (1 / 2) ⟨0, 5, 0, 0, 0, 1, 2, none⟩
    [[0, 0], [0, 0]] 1 2 (1 / 1000)
    (by intro hx; norm_num [matrixIndexOfNode])
    (by intro hx; norm_num [matrixIndexOfNode])
  exact ⟨by intro hx; norm_num [matrixIndexOfNode], h.1, h.2.1,
    by simpa using h.2.2⟩

theorem list_concat_getD_last (l : List ℝ) (a : ℝ) :
    (l ++ [a]).getD ((l ++ [a]).length - 1) 0 = a := by
  simp only [List.getD, List.length_append, List.length_singleton,
    Nat.add_sub_cancel, List.get?_concat_length]
  rfl

theorem logspace_point_mono (lo : ℝ) (hlo : 0 ≤ lo) (N : ℕ) (hN : 1 ≤ N)
    (i j : ℕ) (hij : i ≤ j) :
    lo * (10 : ℝ) ^ ((i : ℝ) / (N : ℝ)) ≤ lo * (10 : ℝ) ^ ((j : ℝ) / (N : ℝ)) := by
  apply mul_le_mul_of_nonneg_left _ hlo
  have hNpos : (0 : ℝ) < (N : ℝ) := by exact_mod_cast hN
  rw [Real.rpow_le_rpow_left_iff (by norm_num : (1 : ℝ) < 10)]
  rw [div_le_div_right hNpos]
  exact_mod_cast hij

theorem logspace_last_ge (lo hi : ℝ) (N : ℕ) (hN : 1 ≤ N) (hlo : 0 < lo)
    (hhi : 0 < hi) :
    hi ≤ lo * (10 : ℝ) ^
      ((((max 1 ⌈Real.logb 10 (hi / lo) * (N : ℝ)⌉).toNat : ℝ)) / (N : ℝ)) := by
  have hNpos : (0 : ℝ) < (N : ℝ) := by exact_mod_cast hN
  set D : ℝ := Real.logb 10 (hi / lo) with hD
  set n : ℤ := max 1 ⌈D * (N : ℝ)⌉ with hn
  have hn1 : (1 : ℤ) ≤ n := le_max_left _ _
  have hcast : ((n.toNat : ℝ)) = (n : ℝ) := by
    have h0 : (0 : ℤ) ≤ n := by omega
    exact_mod_cast Int.toNat_of_nonneg h0
  have hge : D * (N : ℝ) ≤ (n : ℝ) := by
    calc D * (N : ℝ) ≤ (⌈D * (N : ℝ)⌉ : ℝ) := Int.le_ceil _
    _ ≤ (n : ℝ) := by exact_mod_cast le_max_right _ _
  have hexp : D ≤ ((n.toNat : ℝ)) / (N : ℝ) := by
    rw [hcast, le_div_iff hNpos]
    linarith
  have hpow : (10 : ℝ) ^ D ≤ (10 : ℝ) ^ (((n.toNat : ℝ)) / (N : ℝ)) := by
    rw [Real.rpow_le_rpow_left_iff (by norm_num : (1 : ℝ) < 10)]
    exact hexp
  have hbase : (10 : ℝ) ^ D = hi / lo := by
    rw [hD]
    exact Real.rpow_logb (by norm_num) (by norm_num) (div_pos hhi hlo)
  calc hi = lo * (hi / lo) := by field_simp
  _ = lo * (10 : ℝ) ^ D := by rw [hbase]
  _ ≤ lo * (10 : ℝ) ^ (((n.toNat : ℝ)) / (N : ℝ)) :=
      mul_le_mul_of_nonneg_left hpow (le_of_lt hlo)

/-- C10 (confirmed): `logspace` is symmetric in its endpoints (the smaller
one is swapped into first place before the sweep); it fails iff an endpoint
is nonpositive; a successful sweep is nondecreasing, starts at
`min f1 f2`, and its last element is at least `max f1 f2 · (1 − ε)` (in exact
arithmetic it is in fact ≥ `max f1 f2`, so the `arr.push(f2)` safety net
never fires). -/
theorem C10_logspace (f1 f2 : ℝ) (N : ℕ) (hN : 1 ≤ N) :
    logspace f1 f2 N = logspace f2 f1 N ∧
    (logspace f1 f2 N = .error () ↔ f1 ≤ 0 ∨ f2 ≤ 0) ∧
    (∀ l, logspace f1 f2 N = .ok l →
      l.Sorted (· ≤ ·) ∧
      l.head? = some (min f1 f2) ∧
      ∃ last, l.getLast? = some last ∧ max f1 f2 * (1 - EPSR) ≤ last) := by
  have hlo : (if f2 < f1 then f2 else f1) = min f1 f2 := by
    rcases le_or_lt f1 f2 with h | h
    · rw [if_neg (not_lt.mpr h), min_eq_left h]
    · rw [if_pos h, min_eq_right (le_of_lt h)]
  have hhi : (if f2 < f1 then f1 else f2) = max f1 f2 := by
    rcases le_or_lt f1 f2 with h | h
    · rw [if_neg (not_lt.mpr h), max_eq_right h]
    · rw [if_pos h, max_eq_left (le_of_lt h)]
  have hlo2 : (if f1 < f2 then f1 else f2) = min f1 f2 := by
    rcases le_or_lt f2 f1 with h | h
    · rw [if_neg (not_lt.mpr h), min_eq_right h]
    · rw [if_pos h, min_eq_left (le_of_lt h)]
  have hhi2 : (if f1 < f2 then f2 else f1) = max f1 f2 := by
    rcases le_or_lt f2 f1 with h | h
    · rw [if_neg (not_lt.mpr h), max_eq_left h]
    · rw [if_pos h, max_eq_right (le_of_lt h)]
  refine ⟨?_, ?_, ?_⟩
  · unfold logspace
    by_cases h : f1 ≤ 0 ∨ f2 ≤ 0
    · rw [if_pos h, if_pos (Or.symm h)]
    · rw [if_neg h, if_neg (fun hc => h (Or.symm hc))]
      dsimp only
      rw [hlo, hhi, hlo2, hhi2]
  · unfold logspace
    by_cases h : f1 ≤ 0 ∨ f2 ≤ 0
    · simp [h]
    · rw [if_neg h]
      dsimp only
      constructor
      · intro hc
        rcases ite_eq_iff.mp hc with ⟨-, h2⟩ | ⟨-, h2⟩ <;> cases h2
      · intro hc
        exact absurd hc h
  · intro l hl
    have hpos : 0 < f1 ∧ 0 < f2 := by
      by_contra hc
      have : f1 ≤ 0 ∨ f2 ≤ 0 := by
        rcases not_and_or.mp hc with h | h
        · exact Or.inl (not_lt.mp h)
        · exact Or.inr (not_lt.mp h)
      unfold logspace at hl
      rw [if_pos this] at hl
      cases hl
    have hminpos : 0 < min f1 f2 := lt_min hpos.1 hpos.2
    have hmaxpos : 0 < max f1 f2 := lt_of_lt_of_le hpos.1 (le_max_left _ _)
    have hminle : min f1 f2 ≤ max f1 f2 := min_le_of_left_le (le_max_left _ _)
    unfold logspace at hl
    rw [if_neg (by push_neg; exact ⟨hpos.1, hpos.2⟩)] at hl
    dsimp only at hl
    rw [hlo, hhi] at hl
    set m : ℕ := (max 1 ⌈Real.logb 10 (max f1 f2 / min f1 f2) * (N : ℝ)⌉).toNat
      with hm
    set arr : List ℝ := (List.range (m + 1)).map
      (fun i : ℕ => min f1 f2 * (10 : ℝ) ^ ((i : ℝ) / (N : ℝ))) with harr
    have hlastval : arr.getD (arr.length - 1) 0 =
        min f1 f2 * (10 : ℝ) ^ ((m : ℝ) / (N : ℝ)) := by
      rw [harr, List.range_succ, List.map_append, List.map_singleton]
      exact list_concat_getD_last _ _
    have hlastge : max f1 f2 ≤ arr.getD (arr.length - 1) 0 := by
      rw [hlastval, hm]
      exact logspace_last_ge (min f1 f2) (max f1 f2) N hN hminpos hmaxpos
    have hguard : ¬ arr.getD (arr.length - 1) 0 <
        max f1 f2 * (1 - EPSR) := by
      push_neg
      calc max f1 f2 * (1 - EPSR) ≤ max f1 f2 * 1 := by
            apply mul_le_mul_of_nonneg_left _ (le_of_lt hmaxpos)
            norm_num [EPSR]
      _ = max f1 f2 := mul_one _
      _ ≤ arr.getD (arr.length - 1) 0 := hlastge
    rw [if_neg hguard] at hl
    obtain rfl : arr = l := by injection hl
    refine ⟨?_, ?_, ?_⟩
    · rw [harr]
      apply List.Pairwise.map
      · intro a b hab
        exact logspace_point_mono (min f1 f2) (le_of_lt hminpos) N hN a b
          (le_of_lt hab)
      · exact List.pairwise_lt_range (m + 1)
    · rw [harr, List.range_succ_eq_map]
      simp
    · refine ⟨arr.getD (arr.length - 1) 0, ?_, ?_⟩
      · rw [hlastval, harr]
        rw [List.range_succ, List.map_append, List.map_singleton,
          List.getLast?_concat]
      · calc max f1 f2 * (1 - EPSR) ≤ max f1 f2 * 1 := by
              apply mul_le_mul_of_nonneg_left _ (le_of_lt hmaxpos)
              norm_num [EPSR]
        _ = max f1 f2 := mul_one _
        _ ≤ arr.getD (arr.length - 1) 0 := hlastge

theorem C10_logspace_witness :
    (1 : ℕ) ≤ 1 ∧ logspace 1 2 1 = logspace 2 1 1 :=
  ⟨le_rfl, (C10_logspace 1 2 1 le_rfl).1⟩

end Spicey
